import Mathlib

/-!
Verification development for the silly-wat-linker sources.

The Rust sources are shallowly embedded here:

* `src/ast.rs` — `Node` / `Item`, the `Display` serialization, `append_node`,
  and the traversal helpers (`node_iter` becomes `Node.preorder`).
* `src/parser.rs` — the recursive-descent parser. The mutual recursion of
  `parse_node` / `parse_item` runs on an explicit fuel argument (the Rust loop
  has no fuel; fuel monotonicity and sufficiency are proved below, so claims
  are stated for all sufficiently large fuel or via the canonical `parse`).
  The `eat_comment` loop of the source scans for the next `;)` and never
  checks for end of input; its embedding returns `none` when no `;)` occurrs,
  and the wrapper surfaces this as the distinguished error `PErr.diverge`,
  which marks an input on which the Rust loop does not terminate.
* `src/linker.rs`, `src/loader.rs` — the loader is modelled as an association
  list from load path to (canonical path, file contents); the dedup ledger of
  `Linker::load_module` is a list of recorded canonical paths.
* `src/features/*.rs` — the feature passes under scrutiny.

Rust `char::is_alphanumeric` and `char::is_whitespace` use Unicode tables.
The parser is therefore parameterized over a `CharRules` record holding the
two predicates; concrete runs instantiate it with `ccAscii` (the ASCII
versions, which agree with the Rust predicates on all ASCII inputs used by
the claims), and general theorems assume only finitely many facts about the
predicates that the Unicode versions satisfy.
-/

set_option maxRecDepth 4000

namespace SWL

/-! ### The AST (`src/ast.rs`) -/

mutual
/-- `Item` from `src/ast.rs`: `Nothing`, `Attribute(String)` or `Node(Node)`. -/
inductive Item where
  | nothing : Item
  | attribute (value : String) : Item
  | node (n : Node) : Item
/-- `Node` from `src/ast.rs`: name, depth and the ordered item list. -/
inductive Node where
  | mk (name : String) (depth : Nat) (items : List Item) : Node
end

def Node.name : Node → String
  | .mk nm _ _ => nm

def Node.depth : Node → Nat
  | .mk _ d _ => d

def Node.items : Node → List Item
  | .mk _ _ its => its

/-- `Item::as_node`. -/
def Item.asNode : Item → Option Node
  | .node n => some n
  | _ => none

/-- `Item::as_attribute`. -/
def Item.asAttribute : Item → Option String
  | .attribute v => some v
  | _ => none

/-- `Item::is_nothing`. -/
def Item.isNothing : Item → Bool
  | .nothing => true
  | _ => false

/-- space-join, the `join(" ")` of the `Display` implementation. -/
def serialJoin : List (List Char) → List Char
  | [] => []
  | [x] => x
  | x :: y :: rest => x ++ ' ' :: serialJoin (y :: rest)

mutual
/-- `impl Display for Node` (`src/ast.rs` lines 100-115): `(` + name + a
separating space when the (unfiltered) item list is nonempty + the non-`Nothing`
items space-joined + `)`. -/
def Node.serial : Node → List Char
  | .mk nm _ its =>
    '(' :: nm.toList ++
      (if its.length > 0 then ' ' :: serialJoin (serialFiltered its) else []) ++ [')']

/-- `impl Display for Item`: attributes verbatim, nodes recursively,
`Nothing` as the empty string. -/
def Item.serial : Item → List Char
  | .nothing => []
  | .attribute v => v.toList
  | .node n => n.serial

/-- the serializations of the items surviving the `!item.is_nothing()` filter. -/
def serialFiltered : List Item → List (List Char)
  | [] => []
  | .nothing :: rest => serialFiltered rest
  | it :: rest => it.serial :: serialFiltered rest
end

/-- `format!("{}", node)` as a `String`. -/
def Node.serialString (n : Node) : String := String.mk n.serial

mutual
/-- `Node::node_iter` (`src/ast.rs`): pre-order traversal, self first, then the
child nodes depth-first left to right. -/
def Node.preorder : Node → List Node
  | .mk nm d its => .mk nm d its :: preorderItems its

def preorderItems : List Item → List Node
  | [] => []
  | .node n :: rest => n.preorder ++ preorderItems rest
  | _ :: rest => preorderItems rest
end

mutual
/-- add `k` to the `depth` field of every node of the subtree; this is the
`node_iter_mut().for_each(|node| node.depth += self.depth)` loop of
`Node::append_node`. -/
def Node.shiftDepth (k : Nat) : Node → Node
  | .mk nm d its => .mk nm (d + k) (shiftDepthItems k its)

def shiftDepthItems (k : Nat) : List Item → List Item
  | [] => []
  | .node n :: rest => .node (n.shiftDepth k) :: shiftDepthItems k rest
  | it :: rest => it :: shiftDepthItems k rest
end

/-- `Node::append_node` (`src/ast.rs` lines 91-97): rewrite every depth of the
appended subtree by adding the parent's depth, then push it as a new item. -/
def Node.appendNode (parent : Node) (child : Node) : Node :=
  .mk parent.name parent.depth (parent.items ++ [.node (child.shiftDepth parent.depth)])

/-! ### The parser (`src/parser.rs`) -/

/-- `ParserError`, plus `diverge`, the marker produced where the Rust
`eat_comment` loop runs forever (see `eatComment`). -/
inductive PErr where
  | unexpectedEOF : PErr
  | strayData (rem : String) : PErr
  | unexpectedToken (expected got : String) : PErr
  | invalidEscapeSequence : PErr
  | diverge : PErr
deriving DecidableEq

/-- the two Unicode character classes used by the parser,
`char::is_alphanumeric` and `char::is_whitespace`. -/
structure CharRules where
  alnum : Char → Bool
  ws : Char → Bool

/-- the ASCII fragment of the Rust character classes; it agrees with them on
every ASCII character, in particular on all concrete inputs below. -/
def ccAscii : CharRules := ⟨Char.isAlphanum, Char.isWhitespace⟩

/-- identifier characters: alphanumeric or one of `ADDITIONAL_ALLOWED_CHARS`
(`._-`). -/
def identChar (cc : CharRules) (c : Char) : Bool :=
  cc.alnum c || c == '.' || c == '_' || c == '-'

/-- index of the first occurrence of the two-character sequence `a b`. -/
def findPair (a b : Char) : List Char → Option Nat
  | [] => none
  | [_] => none
  | x :: y :: rest =>
    if x = a ∧ y = b then some 0 else (findPair a b (y :: rest)).map (· + 1)

/-- `Parser::eat_line`: `must_next` until a newline; on end of input the
error is dropped by the caller and the position rests at the end. -/
def eatLine : List Char → List Char
  | [] => []
  | c :: rest => if c = '\n' then rest else eatLine rest

/-- `Parser::eat_comment` after its leading `(;` was consumed: the Rust loop
`while !self.is_next(";)") { self.pos += 1 }` advances forever when no `;)`
occurs in the rest of the input (`is_next` is false at and beyond the end),
so the embedding returns `none` exactly in that non-terminating case. -/
def eatComment (l : List Char) : Option (List Char) :=
  (findPair ';' ')' l).map (fun k => l.drop (k + 2))

/-- `Parser::eat_whitespace`, fueled: line comments, block comments and
whitespace characters. Every iteration consumes at least one character, so
fuel `l.length` always suffices (`eatWsF_fuel`); the wrapper `eatWs` supplies
it. A block comment without a closing `;)` yields `PErr.diverge`. -/
def eatWsF (cc : CharRules) : Nat → List Char → Option (Except PErr (List Char))
  | _, [] => some (.ok [])
  | 0, _ :: _ => none
  | fuel + 1, c :: rest =>
    if c = ';' ∧ rest.take 1 = [';'] then
      eatWsF cc fuel (eatLine (rest.drop 1))
    else if c = '(' ∧ rest.take 1 = [';'] then
      match eatComment (rest.drop 1) with
      | none => some (.error .diverge)
      | some l2 => eatWsF cc fuel l2
    else if cc.ws c then eatWsF cc fuel rest
    else some (.ok (c :: rest))

def eatWs (cc : CharRules) (l : List Char) : Except PErr (List Char) :=
  match eatWsF cc l.length l with
  | none => .error .diverge
  | some r => r

/-- `Parser::parse_identifier`: note that the `?` inside the Rust loop
condition propagates `UnexpectedEOF` when the identifier run reaches the end
of the input. -/
def parseIdentifier (cc : CharRules) : List Char → Except PErr (List Char × List Char)
  | [] => .error .unexpectedEOF
  | c :: rest =>
    if identChar cc c then
      (parseIdentifier cc rest).map (fun p => (c :: p.1, p.2))
    else .ok ([], c :: rest)

/-- `Parser::eat_string` after the opening quote: a backslash additionally
consumes the following character; the closing quote is consumed and kept in
the returned token text. -/
def stringTail : List Char → Except PErr (List Char × List Char)
  | [] => .error .unexpectedEOF
  | c :: rest =>
    if c = '"' then .ok (['"'], rest)
    else if c = '\\' then
      match rest with
      | [] => .error .unexpectedEOF
      | d :: rest2 => (stringTail rest2).map (fun p => (c :: d :: p.1, p.2))
    else (stringTail rest).map (fun p => (c :: p.1, p.2))

/-- the attribute branch of `Parser::parse_item`: characters up to
whitespace, `)` or a string start; a `"` switches to string mode and ends the
token after the closing quote. -/
def attrScan (cc : CharRules) : List Char → Except PErr (List Char × List Char)
  | [] => .error .unexpectedEOF
  | c :: rest =>
    if c = '"' then (stringTail rest).map (fun p => (c :: p.1, p.2))
    else if cc.ws c || c = ')' then .ok ([], c :: rest)
    else (attrScan cc rest).map (fun p => (c :: p.1, p.2))

/-- result of a fueled parsing function: `none` when the fuel ran out. -/
abbrev PRes (α : Type) := Option (Except PErr (α × List Char))

mutual
/-- `Parser::parse_node`: whitespace, `(`, whitespace, identifier,
whitespace, items until `)`, the `)`, whitespace. The produced node records
`d`, its nesting depth; children are parsed at `d + 1`. -/
def parseNodeF (cc : CharRules) : Nat → Nat → List Char → PRes Node
  | 0, _, _ => none
  | fuel + 1, d, l =>
    match eatWs cc l with
    | .error e => some (.error e)
    | .ok l1 =>
      match l1 with
      | [] => some (.error (.unexpectedToken "(" ""))
      | c :: rest =>
        if c = '(' then
          match eatWs cc rest with
          | .error e => some (.error e)
          | .ok l1b =>
          match parseIdentifier cc l1b with
          | .error e => some (.error e)
          | .ok (nm, l2) =>
            match eatWs cc l2 with
            | .error e => some (.error e)
            | .ok l3 =>
              match itemsLoopF cc fuel (d + 1) l3 with
              | none => none
              | some (.error e) => some (.error e)
              | some (.ok (its, l4)) =>
                match l4 with
                | ')' :: l5 =>
                  match eatWs cc l5 with
                  | .error e => some (.error e)
                  | .ok l6 => some (.ok (Node.mk (String.mk nm) d its, l6))
                | l4x => some (.error (.unexpectedToken ")" (String.mk (l4x.take 1))))
        else some (.error (.unexpectedToken "(" (String.mk [c])))

/-- `Parser::parse_item`: a nested node when the next character is `(`,
otherwise an attribute token followed by whitespace. -/
def parseItemF (cc : CharRules) : Nat → Nat → List Char → PRes Item
  | 0, _, _ => none
  | fuel + 1, d, l =>
    match l with
    | [] => some (.error .unexpectedEOF)
    | c :: _ =>
      if c = '(' then
        match parseNodeF cc fuel d l with
        | none => none
        | some (.error e) => some (.error e)
        | some (.ok (n, r)) => some (.ok (Item.node n, r))
      else
        match attrScan cc l with
        | .error e => some (.error e)
        | .ok (a, r) =>
          match eatWs cc r with
          | .error e => some (.error e)
          | .ok r2 => some (.ok (Item.attribute (String.mk a), r2))

/-- the `while self.must_peek()? != ')'` item loop of `parse_node`, with the
`eat_whitespace` call after each item. -/
def itemsLoopF (cc : CharRules) : Nat → Nat → List Char → PRes (List Item)
  | 0, _, _ => none
  | fuel + 1, d, l =>
    match l with
    | [] => some (.error .unexpectedEOF)
    | c :: _ =>
      if c = ')' then some (.ok ([], l))
      else
        match parseItemF cc fuel d l with
        | none => none
        | some (.error e) => some (.error e)
        | some (.ok (it, r)) =>
          match eatWs cc r with
          | .error e => some (.error e)
          | .ok r2 =>
            match itemsLoopF cc fuel d r2 with
            | none => none
            | some (.error e) => some (.error e)
            | some (.ok (its, r3)) => some (.ok (it :: its, r3))
end

/-- canonical fuel: along every chain of recursive calls at most three calls
happen at one input length before the length strictly drops, so this bound is
never exhausted (`parseNodeF_fuel`). -/
def parseFuel (l : List Char) : Nat := 3 * l.length + 8

/-- `Parser::parse`: one node, trailing whitespace, and `StrayData` when
input remains. -/
def parse (cc : CharRules) (s : String) : Except PErr Node :=
  let l := s.toList
  match parseNodeF cc (parseFuel l) 0 l with
  | none => .error .diverge
  | some (.error e) => .error e
  | some (.ok (n, r)) =>
    match eatWs cc r with
    | .error e => .error e
    | .ok r2 =>
      if r2.isEmpty then .ok n else .error (.strayData (String.mk r2))

/-! ### Errors (`src/error.rs` and the per-feature error enums) -/

/-- `SWLError`, flattened: the parser errors, `Simple`, and the feature error
enums that the source wraps in `SWLError::Other`. `panicked` stands for a
programming-error abort (an out-of-bounds index or a failing `unwrap`), which
in Rust is a panic rather than a value; no claim below reaches it. -/
inductive SWLErr where
  | parserError (e : PErr)
  | simple (msg : String)
  | notAModule
  | invalidImport
  | invalidStartDirective
  | invalidOffset
  | unknownType (t : String)
  | expressionMissing
  | numParse
  | panicked
deriving DecidableEq

/-! ### Helpers (`src/utils.rs`) -/

/-- `utils::is_module`. -/
def isModule (a : Node) : Bool := a.depth == 0 && a.name == "module"

/-- `utils::is_string_literal`: length above 2, first and last character a
quote. (Rust measures `s.len()` in bytes and indexes `chars().nth(len - 1)`;
on the ASCII strings of all claims this equals the character count used
here.) -/
def isStringLiteral (s : String) : Bool :=
  let l := s.toList
  2 < l.length && l.take 1 = ['"'] && l.getLast? = some '"'

/-- `utils::interpreted_string_length`: one unit per character; a backslash
consumes the following character as part of its unit, and when that following
character is an ASCII decimal digit one more character is consumed. -/
def interpretedStringLength : List Char → Except SWLErr Nat
  | [] => .ok 0
  | c :: rest =>
    if c = '\\' then
      match rest with
      | [] => .error (.parserError .invalidEscapeSequence)
      | d :: rest2 =>
        if d.isDigit then
          match rest2 with
          | [] => .error (.parserError .invalidEscapeSequence)
          | _ :: rest3 => (interpretedStringLength rest3).map (· + 1)
        else (interpretedStringLength rest2).map (· + 1)
    else (interpretedStringLength rest).map (· + 1)

/-- `usize::from_str`: an optional leading `+`, then a nonempty run of
decimal digits whose value fits in 64 bits. -/
def parseUsize (s : String) : Option Nat :=
  let l0 := s.toList
  let l := match l0 with
    | '+' :: rest => rest
    | _ => l0
  if l = [] ∨ ¬ l.all Char.isDigit then none
  else
    let v := l.foldl (fun acc c => acc * 10 + (c.toNat - 48)) 0
    if v < 2 ^ 64 then some v else none

/-- `utils::find_id_attribute`: the first immediate attribute starting with
`$`, or else the first immediate attribute parsing as a `usize`. -/
def findIdAttribute (n : Node) : Option String :=
  let attrs := n.items.filterMap Item.asAttribute
  match attrs.find? (fun a => a.toList.take 1 = ['$']) with
  | some a => some a
  | none => attrs.find? (fun a => (parseUsize a).isSome)

/-! ### Loader and Linker (`src/loader.rs`, `src/linker.rs`) -/

/-- a loader, as an association list: load path to (canonical path, file
contents). `FileSystemLoader` canonicalizes by joining the root directory;
`MockLoader` uses the path itself as canonical identity. -/
abbrev Loader := List (String × String × String)

/-- `Loader::load_raw` over the association list (first match wins). -/
def lookupLoader : Loader → String → Option (String × String)
  | [], _ => none
  | (q, c, txt) :: rest, p => if q = p then some (c, txt) else lookupLoader rest p

/-- `HashMap::insert` on the dedup ledger; keys equal values in the source,
so the ledger is the list of recorded canonical paths. -/
def insertLedger (ledger : List String) (c : String) : List String :=
  if c ∈ ledger then ledger else ledger ++ [c]

/-- `impl Loader for Linker`, `load_module` (`src/linker.rs` lines 57-78):
the ledger is keyed by the given path, not by its canonical form: a hit on
`path` yields the parsed placeholder text `"(module)"` together with the
stored canonical path, without touching the loader; a miss raw-loads, records
the canonical path, and parses the file contents. -/
def loadModule (L : Loader) (ledger : List String) (p : String) :
    Except SWLErr (Node × String × List String) :=
  if p ∈ ledger then
    match parse ccAscii "(module)" with
    | .error e => .error (.parserError e)
    | .ok m => .ok (m, p, ledger)
  else
    match lookupLoader L p with
    | none => .error (.simple ("Unknown file " ++ p))
    | some (c, txt) =>
      match parse ccAscii txt with
      | .error e => .error (.parserError e)
      | .ok m => .ok (m, c, insertLedger ledger c)

/-! ### Feature: import (`src/features/import.rs`) -/

/-- `is_file_import_node`: named `import`, exactly two items, an attribute
then a node named `file`. -/
def isFileImportNode (n : Node) : Bool :=
  n.name == "import" &&
    match n.items with
    | [it0, it1] =>
      it0.asAttribute.isSome &&
        (match it1.asNode with
         | some nd => nd.name == "file"
         | none => false)
    | _ => false

def isFileImportItem : Item → Bool
  | .node n => isFileImportNode n
  | _ => false

/-- strip the surrounding quotes: `&file_path[1..file_path.len() - 1]`
(byte-based in Rust, character-based here; they agree on ASCII). -/
def unquote (s : String) : String := String.mk ((s.toList.drop 1).dropLast)

/-- the `while i < module.items.len()` loop of `import`
(`src/features/import.rs` lines 37-61) as a zipper: `processed` are the
items before index `i`, `pending` the items from `i` on. A file-import
directive is replaced by a tombstone (`Item.nothing`) and every item of the
loaded module is appended to the end of the item list, which is the end of
`pending`; hence directives spliced in by an earlier import are scanned by
the same loop. The Rust loop is unfueled; each iteration consumes one fuel
unit here. -/
def importLoop (L : Loader) : Nat → List Item → List Item → List String →
    Option (Except SWLErr (List Item × List String))
  | _, processed, [], ledger => some (.ok (processed, ledger))
  | 0, _, _ :: _, _ => none
  | fuel + 1, processed, it :: pending, ledger =>
    match it with
    | .node nd =>
      if isFileImportNode nd then
        match nd.items with
        | .attribute fp :: _ =>
          if isStringLiteral fp then
            match loadModule L ledger (unquote fp) with
            | .error e => some (.error e)
            | .ok (m, _, ledger2) =>
              importLoop L fuel (processed ++ [.nothing]) (pending ++ m.items) ledger2
          else some (.error .invalidImport)
        | _ => some (.error .panicked)
      else importLoop L fuel (processed ++ [it]) pending ledger
    | _ => importLoop L fuel (processed ++ [it]) pending ledger

/-- the `import` feature: top-level-module check, then the item loop. -/
def importFeature (L : Loader) (fuel : Nat) (m : Node) (ledger : List String) :
    Option (Except SWLErr (Node × List String)) :=
  if isModule m then
    match importLoop L fuel [] m.items ledger with
    | none => none
    | some (.error e) => some (.error e)
    | some (.ok (its, ledger2)) => some (.ok (.mk m.name m.depth its, ledger2))
  else some (.error .notAModule)

/-- `Linker::link_file` for a linker whose feature list is `[import]`:
`load_module` on the entry path (recording it in the ledger), then the
feature. -/
def linkFileImport (L : Loader) (p : String) (fuel : Nat) :
    Option (Except SWLErr Node) :=
  match loadModule L [] p with
  | .error e => some (.error e)
  | .ok (m, _, ledger) =>
    match importFeature L fuel m ledger with
    | none => none
    | some (.error e) => some (.error e)
    | some (.ok (m2, _)) => some (.ok m2)

/-! ### Feature: sort (`src/features/sort.rs`) -/

/-- `has_import_node`: some node of the subtree (the node itself included) is
named `import`. -/
def hasImportNode (n : Node) : Bool := n.preorder.any (fun x => x.name == "import")

/-- the comparator passed to `module.items.sort_by`: only pairs of node items
compare unequal. -/
def sortCmp : Item → Item → Ordering
  | .node a, .node b =>
    if hasImportNode a ∧ ¬ hasImportNode b then .lt
    else if ¬ hasImportNode a ∧ hasImportNode b then .gt
    else .eq
  | _, _ => .eq

/-- stable insertion of `x` (originally before the list) into an already
sorted list: `x` passes over exactly the elements it compares `Greater`
than. -/
def insertSorted (cmp : Item → Item → Ordering) (x : Item) : List Item → List Item
  | [] => [x]
  | y :: ys => if cmp x y = .gt then y :: insertSorted cmp x ys else x :: y :: ys

/-- `Vec::sort_by`, a stable sort, as stable insertion sort. For a comparator
that is a total preorder every stable sort produces this unique result; for
the three-element slice of the counterexample below (where the comparator is
not transitive) Rust's stable sort performs exactly a stable insertion
sort. -/
def sortByStable (cmp : Item → Item → Ordering) : List Item → List Item
  | [] => []
  | x :: xs => insertSorted cmp x (sortByStable cmp xs)

/-- `frontload_imports` (`src/features/sort.rs` lines 30-49). -/
def frontloadImports (m : Node) : Except SWLErr Node :=
  if isModule m then .ok (.mk m.name m.depth (sortByStable sortCmp m.items))
  else .error .notAModule

/-! ### Feature: start_merge (`src/features/start_merge.rs`) -/

/-- the extraction pass over `module.items`: every node item named `start` is
replaced by a tombstone and collected, in item order. -/
def extractStarts : List Item → List Item × List Node
  | [] => ([], [])
  | it :: rest =>
    let p := extractStarts rest
    match it with
    | .node n =>
      if n.name = "start" then (.nothing :: p.1, n :: p.2) else (it :: p.1, p.2)
    | _ => (it :: p.1, p.2)

/-- ids of the collected start directives via `find_id_attribute`; `none` when
some directive has no identifiable id (`InvalidStartDirective`). -/
def collectIds : List Node → Option (List String)
  | [] => some []
  | n :: rest =>
    match findIdAttribute n with
    | none => none
    | some id => (collectIds rest).map (id :: ·)

/-- `start_merge` (`src/features/start_merge.rs` lines 24-80): with at most
one directive the extracted directive (if any) is re-appended via
`append_node`; with two or more, a merger function named
`$_swl_start_merger` (built with depth 0, its `call` children with depth
`module.depth + 2`) and a fresh `start` directive (depth 0) are appended. -/
def startMerge (m : Node) : Except SWLErr Node :=
  if ¬ isModule m then .error .notAModule else
  let p := extractStarts m.items
  let base : Node := .mk m.name m.depth p.1
  if p.2.length ≤ 1 then
    .ok (p.2.foldl Node.appendNode base)
  else
    match collectIds p.2 with
    | none => .error .invalidStartDirective
    | some ids =>
      let calls : List Item :=
        ids.map (fun id => .node (.mk "call" (m.depth + 2) [.attribute id]))
      let mergeFunc : Node := .mk "func" 0 (.attribute "$_swl_start_merger" :: calls)
      .ok ((base.appendNode mergeFunc).appendNode
        (.mk "start" 0 [.attribute "$_swl_start_merger"]))

/-! ### Feature: size_adjust (`src/features/size_adjust.rs`) -/

/-- `is_active_data_segment` for a node already known to be named `data`:
it has an immediate `memory` child node, or an immediate child node named
`offset` or `i32.const`. -/
def segDataActive (n : Node) : Bool :=
  let kids := n.items.filterMap Item.asNode
  kids.any (fun k => k.name == "memory") ||
    kids.any (fun k => k.name == "offset" || k.name == "i32.const")

/-- the `i32.const` offset extraction: `node.items[0]` panics on a childless
node; a non-attribute first item falls back to `"0"` via `unwrap_or`; an
unparsable attribute is a wrapped parse error. -/
def constOffsetOf (x : Node) : Except SWLErr Nat :=
  if x.name = "i32.const" then
    match x.items with
    | [] => .error .panicked
    | it :: _ =>
      match it.asAttribute with
      | none => .ok 0
      | some a =>
        match parseUsize a with
        | none => .error .numParse
        | some v => .ok v
  else .error .invalidOffset

/-- starting offset of a data segment: the first immediate child named
`offset` or `i32.const`; absent means 0; an `offset` wrapper must hold a
node, which must then be an `i32.const`. -/
def segOffset (n : Node) : Except SWLErr Nat :=
  match (n.items.filterMap Item.asNode).find?
      (fun k => k.name == "offset" || k.name == "i32.const") with
  | none => .ok 0
  | some nd =>
    if nd.name = "offset" then
      match nd.items with
      | [] => .error .panicked
      | it :: _ =>
        match it.asNode with
        | none => .error .invalidOffset
        | some inner => constOffsetOf inner
    else constOffsetOf nd

/-- sum of the interpreted lengths of the string-literal attributes (quotes
stripped before interpreting). -/
def attrLens : List String → Except SWLErr Nat
  | [] => .ok 0
  | a :: rest =>
    if isStringLiteral a then
      match interpretedStringLength ((a.toList.drop 1).dropLast) with
      | .error e => .error e
      | .ok k => (attrLens rest).map (fun acc => k + acc)
    else attrLens rest

def segLength (n : Node) : Except SWLErr Nat :=
  attrLens (n.items.filterMap Item.asAttribute)

/-- the `max_addr` fold over the active immediate `data` children. -/
def maxAddrLoop : List Item → Except SWLErr Nat
  | [] => .ok 0
  | .node nd :: rest =>
    if nd.name == "data" && segDataActive nd then
      match segOffset nd with
      | .error e => .error e
      | .ok off =>
        match segLength nd with
        | .error e => .error e
        | .ok len => (maxAddrLoop rest).map (fun acc => max acc (off + len))
    else maxAddrLoop rest
  | _ :: rest => maxAddrLoop rest

/-- exact value of `n as f32` as a natural number: round to the nearest
24-bit-significand value, ties to even. Below `2 ^ 128` no overflow to
infinity can happen, and `n ≤ 2 ^ 24` is returned exactly. The source then
divides by `65536.0` (an exact exponent shift for these values) and takes
`.ceil()` (exact), so the page count of the source is
`(roundF32near max_addr + 65535) / 65536` in exact arithmetic. -/
def roundF32near (n : Nat) : Nat :=
  if n ≤ 2 ^ 24 then n
  else
    let sh := Nat.log2 n - 23
    let q := n / 2 ^ sh
    let r := n % 2 ^ sh
    let half := 2 ^ (sh - 1)
    if r < half then q * 2 ^ sh
    else if half < r then (q + 1) * 2 ^ sh
    else (if q % 2 = 0 then q else q + 1) * 2 ^ sh

/-- replace the first attribute parsing as a `usize` (flag reports whether
one was found). -/
def patchFirstNumericAttr (s : String) : List Item → List Item × Bool
  | [] => ([], false)
  | .attribute a :: rest =>
    if (parseUsize a).isSome then (.attribute s :: rest, true)
    else
      let p := patchFirstNumericAttr s rest
      (.attribute a :: p.1, p.2)
  | it :: rest =>
    let p := patchFirstNumericAttr s rest
    (it :: p.1, p.2)

/-- patch the first numeric-looking attribute of the memory node, or append
one. -/
def patchMemoryNode (s : String) (n : Node) : Node :=
  let p := patchFirstNumericAttr s n.items
  if p.2 then .mk n.name n.depth p.1
  else .mk n.name n.depth (n.items ++ [.attribute s])

/-- rewrite the first immediate child node named `memory`. -/
def patchFirstMemory (s : String) : List Item → List Item
  | [] => []
  | .node nd :: rest =>
    if nd.name = "memory" then .node (patchMemoryNode s nd) :: rest
    else .node nd :: patchFirstMemory s rest
  | it :: rest => it :: patchFirstMemory s rest

def hasMemoryChild (m : Node) : Bool :=
  (m.items.filterMap Item.asNode).any (fun nd => nd.name == "memory")

/-- `size_adjust` (`src/features/size_adjust.rs` lines 40-108). -/
def sizeAdjust (m : Node) : Except SWLErr Node :=
  if ¬ isModule m then .error .notAModule else
  match maxAddrLoop m.items with
  | .error e => .error e
  | .ok maxAddr =>
    if hasMemoryChild m then
      let numPages := max 1 ((roundF32near maxAddr + 65535) / 65536)
      .ok (.mk m.name m.depth (patchFirstMemory (toString numPages) m.items))
    else .ok m

/-! ### Feature: constexpr (`src/features/constexpr.rs`, `src/eval.rs`) -/

def endsWithStr (s suffix : String) : Bool :=
  let a := s.toList
  let b := suffix.toList
  b.length ≤ a.length && a.drop (a.length - b.length) = b

def startsWithStr (s p : String) : Bool := s.toList.take p.toList.length = p.toList

/-- `str::contains` for a pattern string. -/
def listContains (sub : List Char) : List Char → Bool
  | [] => sub.isEmpty
  | c :: rest => (c :: rest).take sub.length = sub || listContains sub rest

def containsStr (s sub : String) : Bool := listContains sub.toList s.toList

/-- `is_constexpr_node`: name ends with `.constexpr`. -/
def isConstexprNode (n : Node) : Bool := endsWithStr n.name ".constexpr"

/-- `has_constexprs`: some node of the subtree is a constexpr node. -/
def hasConstexprs (n : Node) : Bool := n.preorder.any isConstexprNode

/-- `is_memop`: name contains `.store` or `.load`. -/
def isMemop (n : Node) : Bool := containsStr n.name ".store" || containsStr n.name ".load"

/-- `name.split('.').next().unwrap()`: the segment before the first dot. -/
def firstSeg (s : String) : String := String.mk (s.toList.takeWhile (fun c => c ≠ '.'))

/-- `name.strip_suffix("expr").unwrap()`. -/
def stripExprSuffix (s : String) : String := String.mk (s.toList.take (s.toList.length - 4))

/-- the external execution capability of `utils::run_wat` together with the
`format!("{}", ...)` of the scalar result: given the WebAssembly result type
name and the synthesized module text, it produces the formatted scalar or an
evaluation error. The constexpr feature is its sole caller, and the claims
assume it evaluates the synthesized module correctly. -/
abbrev EvalOracle := String → String → Except SWLErr String

/-- the synthesized evaluation module of `eval_expr` (`src/eval.rs` lines
44-54); the inner whitespace of the Rust format template is schematic here,
and immaterial because the oracle is abstract. -/
def mkEvalWat (prelude typ expr : String) : String :=
  "(module\n" ++ prelude ++ "\n(func (export \"main\") (result " ++ typ ++ ")\n"
    ++ expr ++ "\n)\n)"

/-- `eval_expr`: the first item of the node is the expression; a missing item
is the `Simple` error of the source. -/
def evalExpr (oracle : EvalOracle) (prelude typ : String) (n : Node) :
    Except SWLErr String :=
  match n.items with
  | [] => .error (.simple "Constexpr is missing expression")
  | it :: _ => oracle typ (mkEvalWat prelude typ (String.mk it.serial))

mutual
/-- `process_constexpr` (`src/features/constexpr.rs` lines 33-50): pre-order
over the tree; a constexpr node of known type is evaluated and replaced by
`<type>.const` with the formatted value as single attribute; an unknown type
prefix aborts. (After the item replacement the Rust walker would still visit
the detached former children through dangling pointers; the embedding does
not descend into a rewritten node, and no claim exercises that path.) -/
def procCE (oracle : EvalOracle) (prelude : String) : Node → Except SWLErr Node
  | .mk nm d its =>
    if isConstexprNode (.mk nm d its) then
      let typ := firstSeg nm
      if typ = "i32" ∨ typ = "i64" ∨ typ = "f32" ∨ typ = "f64" then
        match evalExpr oracle prelude typ (.mk nm d its) with
        | .error e => .error e
        | .ok v => .ok (.mk (stripExprSuffix nm) d [.attribute v])
      else .error (.unknownType typ)
    else
      match procCEItems oracle prelude its with
      | .error e => .error e
      | .ok its2 => .ok (.mk nm d its2)

def procCEItems (oracle : EvalOracle) (prelude : String) :
    List Item → Except SWLErr (List Item)
  | [] => .ok []
  | .node n :: rest =>
    match procCE oracle prelude n with
    | .error e => .error e
    | .ok n2 =>
      match procCEItems oracle prelude rest with
      | .error e => .error e
      | .ok rest2 => .ok (.node n2 :: rest2)
  | it :: rest =>
    match procCEItems oracle prelude rest with
    | .error e => .error e
    | .ok rest2 => .ok (it :: rest2)
end

/-- `str::split` on one character: the segments between occurrences of
`c` (an empty list yields one empty segment, as in Rust). -/
def splitOnChar (c : Char) : List Char → List (List Char)
  | [] => [[]]
  | x :: rest =>
    if x = c then [] :: splitOnChar c rest
    else
      match splitOnChar c rest with
      | h :: t => (x :: h) :: t
      | [] => [[x]]

/-- `memarg.split('=').nth(1)`. -/
def splitEqSecond (a : String) : Option String :=
  ((splitOnChar '=' a.toList).get? 1).map String.mk

/-- the per-attribute work of `process_offset_constexpr`: `none` means the
attribute is left alone (the `continue` of the source), `some b` that it is
rewritten to `b`. -/
def procOffAttr (oracle : EvalOracle) (prelude : String) (a : String) :
    Except SWLErr (Option String) :=
  match splitEqSecond a with
  | none => .error .expressionMissing
  | some es =>
    if es.toList.take 1 = ['('] then
      match parse ccAscii es with
      | .error e => .error (.parserError e)
      | .ok en =>
        let typ := firstSeg en.name
        if typ = "i32" ∨ typ = "i64" ∨ typ = "f32" ∨ typ = "f64" then
          match evalExpr oracle prelude typ en with
          | .error e => .error e
          | .ok v => .ok (some ("offset=" ++ v))
        else .error (.unknownType typ)
    else .ok none

/-- `get_memarg` plus the fold: the replacement value for the first attribute
starting with `offset=`, if it is to be rewritten. -/
def scanMemarg (oracle : EvalOracle) (prelude : String) :
    List Item → Except SWLErr (Option String)
  | [] => .ok none
  | .attribute a :: rest =>
    if startsWithStr a "offset=" then procOffAttr oracle prelude a
    else scanMemarg oracle prelude rest
  | _ :: rest => scanMemarg oracle prelude rest

/-- rewrite the first attribute starting with `offset=` to `b`. -/
def applyMemarg (b : String) : List Item → List Item
  | [] => []
  | .attribute a :: rest =>
    if startsWithStr a "offset=" then .attribute b :: rest
    else .attribute a :: applyMemarg b rest
  | it :: rest => it :: applyMemarg b rest

mutual
/-- `process_offset_constexpr` (`src/features/constexpr.rs` lines 61-91):
pre-order over the tree; on every memory-operation node the first `offset=`
attribute is folded (before the children are visited; the attribute rewrite
and the child processing touch disjoint items, so applying the rewrite after
the recursion yields the same tree and the same error order as the
source). -/
def procOff (oracle : EvalOracle) (prelude : String) : Node → Except SWLErr Node
  | .mk nm d its =>
    match (if isMemop (.mk nm d its) then scanMemarg oracle prelude its else .ok none) with
    | .error e => .error e
    | .ok repl =>
      match procOffItems oracle prelude its with
      | .error e => .error e
      | .ok its2 =>
        .ok (.mk nm d (match repl with
          | none => its2
          | some b => applyMemarg b its2))

def procOffItems (oracle : EvalOracle) (prelude : String) :
    List Item → Except SWLErr (List Item)
  | [] => .ok []
  | .node n :: rest =>
    match procOff oracle prelude n with
    | .error e => .error e
    | .ok n2 =>
      match procOffItems oracle prelude rest with
      | .error e => .error e
      | .ok rest2 => .ok (.node n2 :: rest2)
  | it :: rest =>
    match procOffItems oracle prelude rest with
    | .error e => .error e
    | .ok rest2 => .ok (it :: rest2)
end

/-- the prelude of the `constexpr` feature: the serialized immediate
`global` children that contain no constexpr node, newline-joined. -/
def preludeOf (m : Node) : String :=
  String.intercalate "\n"
    (((m.items.filterMap Item.asNode).filter
        (fun nd => nd.name == "global" && ¬ hasConstexprs nd)).map Node.serialString)

/-- the `constexpr` feature (`src/features/constexpr.rs` lines 93-111): the
module-shape check, the prelude, then the two passes in order. -/
def constexprFeature (oracle : EvalOracle) (m : Node) : Except SWLErr Node :=
  if ¬ isModule m then .error .notAModule else
  match procCE oracle (preludeOf m) m with
  | .error e => .error e
  | .ok m1 => procOff oracle (preludeOf m) m1

/-! ### The depth invariant (spec section 3) -/

mutual
/-- the invariant of spec section 3 at base depth `base`: the node records
`base` and every child subtree satisfies the invariant at `base + 1`. The
whole-document invariant is `depthOkN 0 root`. -/
def depthOkN (base : Nat) : Node → Bool
  | .mk _ d its => d == base && depthOkItems base its

def depthOkItems (base : Nat) : List Item → Bool
  | [] => true
  | .node n :: rest => depthOkN (base + 1) n && depthOkItems base rest
  | _ :: rest => depthOkItems base rest
end

/-! ### Definitions following claim texts (not the source)

These definitions translate the words of claims that turn out to disagree
with the source; each counterexample below compares one of them with the
corresponding source embedding. -/

/-- following the words of claim C2 (not the source): each `(import "p"
(file))` directive is processed in original order, the target is loaded with
the feature applied recursively first, and the loaded module's items are
inserted in place of the removed directive. -/
def importClaimSplice (L : Loader) : Nat → List Item → List String →
    Option (Except SWLErr (List Item × List String))
  | 0, _, _ => none
  | _ + 1, [], ledger => some (.ok ([], ledger))
  | fuel + 1, it :: rest, ledger =>
    match it with
    | .node nd =>
      if isFileImportNode nd then
        match nd.items with
        | .attribute fp :: _ =>
          if isStringLiteral fp then
            match loadModule L ledger (unquote fp) with
            | .error e => some (.error e)
            | .ok (m, _, led2) =>
              match importClaimSplice L fuel m.items led2 with
              | none => none
              | some (.error e) => some (.error e)
              | some (.ok (spliced, led3)) =>
                match importClaimSplice L fuel rest led3 with
                | none => none
                | some (.error e) => some (.error e)
                | some (.ok (rest2, led4)) => some (.ok (spliced ++ rest2, led4))
          else some (.error .invalidImport)
        | _ => some (.error .panicked)
      else
        match importClaimSplice L fuel rest ledger with
        | none => none
        | some (.error e) => some (.error e)
        | some (.ok (rest2, led2)) => some (.ok (it :: rest2, led2))
    | _ =>
      match importClaimSplice L fuel rest ledger with
      | none => none
      | some (.error e) => some (.error e)
      | some (.ok (rest2, led2)) => some (.ok (it :: rest2, led2))

def isHexDigitChar (c : Char) : Bool :=
  c.isDigit || (decide ('a' ≤ c) && decide (c ≤ 'f')) || (decide ('A' ≤ c) && decide (c ≤ 'F'))

/-- following the words of claim C6 (not the source): one unit per
character, except that a backslash followed by two hex digits counts as a
single unit. -/
def claimInterpretedLength : List Char → Nat
  | [] => 0
  | '\\' :: a :: b :: rest =>
    if isHexDigitChar a ∧ isHexDigitChar b then claimInterpretedLength rest + 1
    else claimInterpretedLength (a :: b :: rest) + 1
  | _ :: rest => claimInterpretedLength rest + 1

/-- the ordering property of claim C8 on the node children of a sorted item
list: every node child with an import descendant precedes every node child
without one. -/
def pairwiseImportOk : List Node → Bool
  | [] => true
  | a :: rest =>
    rest.all (fun b => hasImportNode a || ! hasImportNode b) && pairwiseImportOk rest

def nodeChildren (its : List Item) : List Node := its.filterMap Item.asNode

/-- a node item named `start`. -/
def isStartItem : Item → Bool
  | .node n => n.name == "start"
  | _ => false

def isNodeItem : Item → Bool
  | .node _ => true
  | _ => false

/-- a node item with an import descendant (false on non-node items). -/
def impItem : Item → Bool
  | .node n => hasImportNode n
  | _ => false

/-- the first attribute starting with `offset=`, as found by `get_memarg`. -/
def firstOffsetAttr : List Item → Option String
  | [] => none
  | .attribute a :: rest =>
    if startsWithStr a "offset=" then some a else firstOffsetAttr rest
  | _ :: rest => firstOffsetAttr rest

/-! ### Concrete inputs used by the claims -/

/-- module A of claim C1. -/
def textA : String := "(module (import \"B\" (file)) (import \"B\" (file)) (func $a))"

/-- module B of claims C1 and C2. -/
def textB : String := "(module (func $c) (func $d))"

/-- the loader of claim C2: file `B`, canonical identity `B`. -/
def loaderC2 : Loader := [("B", "B", "(module (func $c))")]

/-- module A of the claim C2 counterexample, as parsed from
`(module (import "B" (file)) (func $a))`. -/
def modA2 : Node :=
  .mk "module" 0
    [.node (.mk "import" 1 [.attribute "\"B\"", .node (.mk "file" 2 [])]),
     .node (.mk "func" 1 [.attribute "$a"])]

/-- the loader of the claim C3 counterexample: file `B` has canonical
identity `/B` (as with `FileSystemLoader`, whose canonical path is the root
directory joined with the load path). -/
def loaderC3 : Loader := [("B", "/B", "(module (func $c))")]

/-- the parse of `(module (func $c))`. -/
def modB3 : Node := .mk "module" 0 [.node (.mk "func" 1 [.attribute "$c"])]

/-- the module of the claim C7 counterexample, as parsed from
`(module (func $t1) (start $t1) (func $t2) (start $t2))`. -/
def modC7 : Node :=
  .mk "module" 0
    [.node (.mk "func" 1 [.attribute "$t1"]),
     .node (.mk "start" 1 [.attribute "$t1"]),
     .node (.mk "func" 1 [.attribute "$t2"]),
     .node (.mk "start" 1 [.attribute "$t2"])]

/-- the module of the claim C8 counterexample, as parsed from
`(module (func $a) x (import))`. -/
def modC8 : Node :=
  .mk "module" 0
    [.node (.mk "func" 1 [.attribute "$a"]),
     .attribute "x",
     .node (.mk "import" 1 [])]

/-- the module of the claim C9 counterexample, as parsed from
`(module (start $a) (func $b))`. -/
def modC9 : Node :=
  .mk "module" 0
    [.node (.mk "start" 1 [.attribute "$a"]),
     .node (.mk "func" 1 [.attribute "$b"])]

/-- the module of the claim C6 counterexample, as parsed from
`(module (memory $x) (data (i32.const 65535) "\ab"))`. -/
def modC6 : Node :=
  .mk "module" 0
    [.node (.mk "memory" 1 [.attribute "$x"]),
     .node (.mk "data" 1
       [.node (.mk "i32.const" 2 [.attribute "65535"]),
        .attribute "\"\\ab\""])]

/-- an oracle that answers `12` to every request; on the one module the
claim C10 counterexample synthesizes (result type `i32`, body
`(i32.add (i32.const 8) (i32.const 4))`) this is the correct answer. -/
def oracleTwelve : EvalOracle := fun _ _ => .ok "12"

/-- the offset attribute of claim C10. -/
def offsetAttrC10 : String := "offset=(i32.constexpr (i32.add (i32.const 8) (i32.const 4)))"

/-- the module of the claim C10 counterexample: it contains a
memory-operation node carrying the claim's offset attribute, and one further
constexpr node with an unknown type prefix. -/
def modC10 : Node :=
  .mk "module" 0
    [.node (.mk "lol.constexpr" 1 []),
     .node (.mk "i32.store" 1
       [.attribute offsetAttrC10, .node (.mk "i32.const" 2 [.attribute "4"])])]



mutual
/-- every memory-operation node's first `offset=` attribute is benign: its
text after the first `=` either does not start with `(`, or the whole
attribute is exactly the one of claim C10. -/
def benignOffsets : Node → Bool
  | .mk nm d its =>
    (if isMemop (.mk nm d its) then
      match firstOffsetAttr its with
      | none => true
      | some a =>
        match splitEqSecond a with
        | none => false
        | some es => if es.toList.take 1 = ['('] then a == offsetAttrC10 else true
     else true) && benignOffsetsItems its

def benignOffsetsItems : List Item → Bool
  | [] => true
  | .node n :: rest => benignOffsets n && benignOffsetsItems rest
  | _ :: rest => benignOffsetsItems rest
end

mutual
/-- the rewrite claim C10 (as amended) predicts: on every memory-operation
node whose first `offset=` attribute is the claim's constexpr attribute,
that attribute becomes `offset=12`; everything else is unchanged. -/
def c10rewrite : Node → Node
  | .mk nm d its =>
    let its2 := c10rewriteItems its
    match firstOffsetAttr its with
    | some a =>
      if isMemop (.mk nm d its) && a == offsetAttrC10 then
        .mk nm d (applyMemarg "offset=12" its2)
      else .mk nm d its2
    | none => .mk nm d its2

def c10rewriteItems : List Item → List Item
  | [] => []
  | .node n :: rest => .node (c10rewrite n) :: c10rewriteItems rest
  | it :: rest => it :: c10rewriteItems rest
end

/-! ### Well-formedness of parser output (claim C5) -/

/-- the input starts with none of the three things `eat_whitespace` consumes:
no whitespace character, no `;;` line comment, no `(;` block comment. On such
input `eatWs` is the identity. -/
def normalized (cc : CharRules) : List Char → Prop
  | [] => True
  | c :: t =>
    cc.ws c = false ∧ ¬(c = ';' ∧ t.take 1 = [';']) ∧ ¬(c = '(' ∧ t.take 1 = [';'])

/-- the finitely many facts about the two character classes that the
round-trip proof uses; `char::is_alphanumeric` and `char::is_whitespace`
satisfy all of them, as does the ASCII instance `ccAscii`
(`ccAscii_sane`). -/
structure CCSane (cc : CharRules) : Prop where
  ws_space : cc.ws ' ' = true
  ws_lpar : cc.ws '(' = false
  ws_rpar : cc.ws ')' = false
  ws_of_ident : ∀ c, identChar cc c = true → cc.ws c = false
  id_lpar : identChar cc '(' = false
  id_rpar : identChar cc ')' = false
  id_semi : identChar cc ';' = false
  id_space : identChar cc ' ' = false

/-- invariant of attribute tokens produced by `parse_item`: nonempty, not
starting with a parenthesis, whitespace or a line comment, and rescanning the
token before a terminator consumes exactly the token. -/
def wfAttr (cc : CharRules) (a : String) : Prop :=
  a.toList ≠ [] ∧
  a.toList.take 1 ≠ ['('] ∧ a.toList.take 1 ≠ [')'] ∧
  (∀ c ∈ a.toList.take 1, cc.ws c = false) ∧
  a.toList.take 2 ≠ [';', ';'] ∧
  attrScan cc (a.toList ++ [')']) = .ok (a.toList, [')'])

/-- when a node's name is empty the parser stopped the identifier scan at a
non-identifier character, so the first item cannot be an attribute starting
with an identifier character (otherwise reparsing would absorb it into the
name). -/
def emptyNameOK (cc : CharRules) : List Item → Prop
  | .attribute a :: _ => ∀ c ∈ a.toList.take 1, identChar cc c = false
  | _ => True

mutual
/-- invariant of parser-produced subtrees rooted at recorded depth `d`: the
recorded depth is the structural one, the name consists of identifier
characters, an empty name is followed by a non-identifier character, and the
items are well-formed one level deeper (in particular no `Nothing` occurs, so
serialization drops nothing). -/
def wfNode (cc : CharRules) : Nat → Node → Prop
  | d, .mk nm dep its =>
    dep = d ∧ (∀ c ∈ nm.toList, identChar cc c = true) ∧
    (nm.toList = [] → emptyNameOK cc its) ∧ wfItems cc (d + 1) its

def wfItems (cc : CharRules) : Nat → List Item → Prop
  | _, [] => True
  | _, .nothing :: _ => False
  | d, .attribute a :: rest => wfAttr cc a ∧ wfItems cc d rest
  | d, .node n :: rest => wfNode cc d n ∧ wfItems cc d rest
end

/-- single-item variant of `wfItems`. -/
def wfItem (cc : CharRules) (d : Nat) : Item → Prop
  | .nothing => False
  | .attribute a => wfAttr cc a
  | .node n => wfNode cc d n

/-- how the first produced item relates to the first character of the input
it was parsed from. -/
def firstItemHeadRel (l : List Char) : List Item → Prop
  | [] => True
  | .nothing :: _ => True
  | .attribute a :: _ => a.toList.take 1 = l.take 1
  | .node _ :: _ => l.take 1 = ['(']

/-! ### Theorems: general lemmas -/

theorem depthOkItems_append (b : Nat) (xs ys : List Item) :
    depthOkItems b (xs ++ ys) = (depthOkItems b xs && depthOkItems b ys) := by
  induction xs with
  | nil => simp [depthOkItems]
  | cons it rest ih =>
    cases it with
    | node n => simp [depthOkItems, ih, Bool.and_assoc]
    | nothing => simp [depthOkItems, ih]
    | «attribute» a => simp [depthOkItems, ih]

mutual
theorem shiftDepth_depthOk (k : Nat) :
    ∀ (b : Nat) (n : Node), depthOkN b n = true → depthOkN (b + k) (n.shiftDepth k) = true
  | b, .mk nm d its, h => by
    simp only [depthOkN, Bool.and_eq_true, beq_iff_eq] at h
    simp only [Node.shiftDepth, depthOkN, Bool.and_eq_true, beq_iff_eq]
    exact ⟨by rw [h.1], shiftItems_depthOk k b its h.2⟩

theorem shiftItems_depthOk (k : Nat) :
    ∀ (b : Nat) (its : List Item), depthOkItems b its = true →
      depthOkItems (b + k) (shiftDepthItems k its) = true
  | _, [], _ => rfl
  | b, .node n :: rest, h => by
    simp only [depthOkItems, Bool.and_eq_true] at h
    simp only [shiftDepthItems, depthOkItems, Bool.and_eq_true]
    refine ⟨?_, shiftItems_depthOk k b rest h.2⟩
    have h2 := shiftDepth_depthOk k (b + 1) n h.1
    rwa [Nat.add_right_comm] at h2
  | b, .nothing :: rest, h => by
    simp only [shiftDepthItems, depthOkItems] at h ⊢
    exact shiftItems_depthOk k b rest h
  | b, .attribute a :: rest, h => by
    simp only [shiftDepthItems, depthOkItems] at h ⊢
    exact shiftItems_depthOk k b rest h
end

mutual
theorem shiftDepth_zero : ∀ n : Node, n.shiftDepth 0 = n
  | .mk nm d its => by
    simp only [Node.shiftDepth, Nat.add_zero, shiftItems_zero its]

theorem shiftItems_zero : ∀ its : List Item, shiftDepthItems 0 its = its
  | [] => rfl
  | .node n :: rest => by
    simp only [shiftDepthItems, shiftDepth_zero n, shiftItems_zero rest]
  | .nothing :: rest => by
    simp only [shiftDepthItems, shiftItems_zero rest]
  | .attribute a :: rest => by
    simp only [shiftDepthItems, shiftItems_zero rest]
end


/-- one extra unit of fuel does not change a completed run of the import
loop. -/
theorem importLoop_mono (L : Loader) :
    ∀ (f : Nat) (pr pe : List Item) (led : List String) (r),
      importLoop L f pr pe led = some r → importLoop L (f + 1) pr pe led = some r := by
  intro f
  induction f with
  | zero =>
    intro pr pe led r h
    cases pe with
    | nil => exact h
    | cons it pending => exact absurd h (by simp [importLoop])
  | succ n ih =>
    intro pr pe led r h
    cases pe with
    | nil => exact h
    | cons it pending =>
      simp only [importLoop] at h ⊢
      cases it with
      | node nd =>
        by_cases hi : isFileImportNode nd = true
        · simp only [hi] at h ⊢
          cases hnd : nd.items with
          | nil => rw [hnd] at h; exact h
          | cons it0 its =>
            rw [hnd] at h
            cases it0 with
            | «attribute» fp =>
              by_cases hs : isStringLiteral fp = true
              · simp only [hs] at h ⊢
                cases hlm : loadModule L led (unquote fp) with
                | error e => rw [hlm] at h; exact h
                | ok t =>
                  obtain ⟨m, c2, led2⟩ := t
                  rw [hlm] at h
                  exact ih _ _ _ _ h
              · simp only [hs] at h ⊢
                exact h
            | nothing => exact h
            | node x => exact h
        · simp only [hi] at h ⊢
          exact ih _ _ _ _ h
      | nothing => exact ih _ _ _ _ h
      | «attribute» a => exact ih _ _ _ _ h

theorem importLoop_mono_le (L : Loader) {f g : Nat} (hfg : f ≤ g) :
    ∀ pr pe led r, importLoop L f pr pe led = some r →
      importLoop L g pr pe led = some r := by
  induction g, hfg using Nat.le_induction with
  | base => intro pr pe led r h; exact h
  | succ n _ ih =>
    intro pr pe led r h
    exact importLoop_mono L n pr pe led r (ih pr pe led r h)


theorem importFeature_mono_le (L : Loader) {f g : Nat} (hfg : f ≤ g)
    (m : Node) (led : List String) (r : Except SWLErr (Node × List String))
    (h : importFeature L f m led = some r) : importFeature L g m led = some r := by
  unfold importFeature at h ⊢
  by_cases hm : isModule m = true
  · simp only [hm, if_true] at h ⊢
    cases hil : importLoop L f [] m.items led with
    | none => rw [hil] at h; exact absurd h (by simp)
    | some r2 =>
      rw [hil] at h
      rw [importLoop_mono_le L hfg _ _ _ _ hil]
      exact h
  · simp only [hm] at h ⊢
    exact h

theorem linkFileImport_mono_le (L : Loader) (p : String) {f g : Nat} (hfg : f ≤ g)
    (r : Except SWLErr Node) (h : linkFileImport L p f = some r) :
    linkFileImport L p g = some r := by
  unfold linkFileImport at h ⊢
  cases hld : loadModule L [] p with
  | error e => rw [hld] at h; exact h
  | ok t =>
    obtain ⟨m, c2, led⟩ := t
    rw [hld] at h
    replace h : (match importFeature L f m led with
      | none => (none : Option (Except SWLErr Node))
      | some (.error e) => some (.error e)
      | some (.ok (m2, _)) => some (.ok m2)) = some r := h
    show (match importFeature L g m led with
      | none => (none : Option (Except SWLErr Node))
      | some (.error e) => some (.error e)
      | some (.ok (m2, _)) => some (.ok m2)) = some r
    cases hif : importFeature L f m led with
    | none => rw [hif] at h; exact absurd h (by simp)
    | some r2 =>
      rw [hif] at h
      rw [importFeature_mono_le L hfg m led r2 hif]
      exact h

/-! ### Claim C1 -/

/-- Claim C1: for every linker running only the import feature, with file `A`
being `(module (import "B" (file)) (import "B" (file)) (func $a))` and file
`B` being `(module (func $c) (func $d))` (B's load path equal to its
canonical identity), linking `A` succeeds and the result serializes to
`(module (func $a) (func $c) (func $d))`: B's declarations appear exactly
once, in B's original order. The loader may hold arbitrary further files;
the import loop of the source is unfueled, so the statement holds for every
sufficiently large fuel (five iterations are performed). -/
theorem c1_import_dedup_result (rest : Loader) (fuel : Nat) (hf : 5 ≤ fuel) :
    (linkFileImport (("A", "A", textA) :: ("B", "B", textB) :: rest) "A" fuel).map
      (Except.map Node.serialString)
    = some (.ok "(module (func $a) (func $c) (func $d))") := by
  have h5 : linkFileImport (("A", "A", textA) :: ("B", "B", textB) :: rest) "A" 5
      = some (.ok (Node.mk "module" 0
          [.nothing, .nothing,
           .node (.mk "func" 1 [.attribute "$a"]),
           .node (.mk "func" 1 [.attribute "$c"]),
           .node (.mk "func" 1 [.attribute "$d"])])) := rfl
  rw [linkFileImport_mono_le _ _ hf _ h5]
  rfl

/-- witness for claim C1 at the empty loader tail and fuel 5. -/
theorem c1_witness :
    (linkFileImport [("A", "A", textA), ("B", "B", textB)] "A" 5).map
      (Except.map Node.serialString)
    = some (.ok "(module (func $a) (func $c) (func $d))") :=
  c1_import_dedup_result [] 5 (Nat.le_refl 5)

/-! ### Claim C4 -/

/-- Claim C4 asserts that `parse` terminates on every input, including
inputs with unterminated comments. The code disagrees: on the input `(;`
(and on any input whose remaining text begins a block comment that no `;)`
ever closes) the loop of `Parser::eat_comment` increments the position
forever, because `is_next(";)")` is false at every position; `PErr.diverge`
is the embedding's marker for exactly this non-terminating loop (see
`eatComment`). -/
theorem c4_parse_runs_forever_on_unterminated_comment :
    parse ccAscii "(;" = .error .diverge
    ∧ parse ccAscii "(module (; unterminated" = .error .diverge := ⟨rfl, rfl⟩

/-! ### Claim C2: counterexample -/

/-- Claim C2 says the items of the loaded module are inserted in place of
the removed import directive, after resolving the loaded module's own
imports recursively first. The source instead appends the loaded items at
the end of the importing module's item list and resolves transitive imports
later in the same scan: for `A = (module (import "B" (file)) (func $a))` and
`B = (module (func $c))`, the source produces
`(module (func $a) (func $c))`, while the claim's in-place splice (embodied
by `importClaimSplice`, written from the claim's words) produces
`(module (func $c) (func $a))`. -/
theorem c2_counterexample :
    parse ccAscii "(module (import \"B\" (file)) (func $a))" = .ok modA2
    ∧ (importFeature loaderC2 10 modA2 []).map
        (Except.map (fun p => Node.serialString p.1))
      = some (.ok "(module (func $a) (func $c))")
    ∧ (importClaimSplice loaderC2 10 modA2.items []).map
        (Except.map (fun p => (Node.mk "module" 0 p.1).serialString))
      = some (.ok "(module (func $c) (func $a))")
    ∧ ("(module (func $a) (func $c))" : String) ≠ "(module (func $c) (func $a))" :=
  ⟨rfl, rfl, rfl, by decide⟩

/-! ### Claim C2: amended -/

theorem importLoop_skip_step (L : Loader) (f : Nat) (pr pe : List Item)
    (led : List String) (it : Item) (h : isFileImportItem it = false) :
    importLoop L (f + 1) pr (it :: pe) led = importLoop L f (pr ++ [it]) pe led := by
  cases it with
  | node nd =>
    have hnd : isFileImportNode nd = false := by simpa [isFileImportItem] using h
    simp [importLoop, hnd]
  | nothing => rfl
  | «attribute» a => rfl

theorem importLoop_import_step (L : Loader) (f : Nat) (pr pe : List Item)
    (led : List String) (nd : Node) (fp : String) (tl : List Item)
    (hnd : isFileImportNode nd = true) (hni : nd.items = .attribute fp :: tl)
    (hs : isStringLiteral fp = true) :
    importLoop L (f + 1) pr (.node nd :: pe) led
      = match loadModule L led (unquote fp) with
        | .error e => some (.error e)
        | .ok (m, _, led2) => importLoop L f (pr ++ [.nothing]) (pe ++ m.items) led2 := by
  simp only [importLoop, hnd, if_true]
  rw [hni]
  simp only [hs, if_true]

theorem importLoop_skip_prefix (L : Loader) :
    ∀ pre : List Item, (∀ it ∈ pre, isFileImportItem it = false) →
      ∀ (f : Nat) (pr pe : List Item) (led : List String),
        importLoop L (pre.length + f) pr (pre ++ pe) led
          = importLoop L f (pr ++ pre) pe led := by
  intro pre
  induction pre with
  | nil =>
    intro _ f pr pe led
    simp
  | cons it rest ih =>
    intro h f pr pe led
    have hit := h it (List.mem_cons_self it rest)
    have hstep : (it :: rest).length + f = (rest.length + f) + 1 := by
      simp [List.length_cons]
      omega
    rw [hstep, List.cons_append,
      importLoop_skip_step L (rest.length + f) pr (rest ++ pe) led it hit,
      ih (fun x hx => h x (List.mem_cons_of_mem it hx)) f (pr ++ [it]) pe led,
      List.append_assoc, List.singleton_append]

theorem importLoop_nil (L : Loader) (f : Nat) (pr : List Item) (led : List String) :
    importLoop L f pr [] led = some (.ok (pr, led)) := by
  cases f <;> rfl

theorem importLoop_no_imports (L : Loader)
    (pe : List Item) (h : ∀ it ∈ pe, isFileImportItem it = false)
    (f : Nat) (pr : List Item) (led : List String) (hf : pe.length ≤ f) :
    importLoop L f pr pe led = some (.ok (pr ++ pe, led)) := by
  obtain ⟨k, rfl⟩ := Nat.exists_eq_add_of_le hf
  have h2 := importLoop_skip_prefix L pe h k pr [] led
  rw [List.append_nil] at h2
  rw [h2, importLoop_nil]

theorem quoted_toList (p : String) :
    ("\"" ++ p ++ "\"").toList = '"' :: (p.toList ++ ['"']) := by
  obtain ⟨l⟩ := p
  rfl

theorem unquote_quoted (p : String) : unquote ("\"" ++ p ++ "\"") = p := by
  obtain ⟨l⟩ := p
  show String.mk (((("\"" ++ String.mk l ++ "\"").toList).drop 1).dropLast) = String.mk l
  rw [quoted_toList]
  simp only [List.drop_succ_cons, List.drop_zero]
  rw [show (String.mk l).toList = l from rfl]
  rw [List.dropLast_concat]

theorem isStringLiteral_quoted (p : String) (hp : p.toList ≠ []) :
    isStringLiteral ("\"" ++ p ++ "\"") = true := by
  have hlen : 0 < p.toList.length := List.length_pos.mpr hp
  simp only [isStringLiteral, quoted_toList, Bool.and_eq_true, decide_eq_true_eq]
  refine ⟨⟨?_, rfl⟩, ?_⟩
  · simp only [List.length_cons, List.length_append, List.length_singleton]
    omega
  · rw [show '"' :: (p.toList ++ ['"']) = ('"' :: p.toList) ++ ['"'] by simp]
    rw [List.getLast?_concat]

/-- Claim C2, amended: the import feature scans the item list left to right
(items appended during the scan included); a file-import directive is
replaced by a tombstone and every item of the loaded module — parsed, not
recursively feature-processed — is appended to the end of the importing
module's item list, so transitive imports are handled by the same scan and
spliced items land at the end, not in the directive's place. Stated for a
module with one import directive among otherwise import-free items, loading
an import-free module B. -/
theorem c2_amended_import_appends (L : Loader) (ledger : List String) (m B : Node)
    (p c txt : String) (pre post : List Item) (nd : Node)
    (hm : isModule m = true)
    (hsplit : m.items = pre ++ Item.node nd :: post)
    (hnd : isFileImportNode nd = true)
    (hfp : nd.items.head? = some (Item.attribute ("\"" ++ p ++ "\"")))
    (hple : p.toList ≠ [])
    (hpre : ∀ it ∈ pre, isFileImportItem it = false)
    (hpost : ∀ it ∈ post, isFileImportItem it = false)
    (hled : p ∉ ledger)
    (hlook : lookupLoader L p = some (c, txt))
    (hparse : parse ccAscii txt = .ok B)
    (hB : ∀ it ∈ B.items, isFileImportItem it = false)
    (fuel : Nat) (hfuel : m.items.length + B.items.length ≤ fuel) :
    importFeature L fuel m ledger
      = some (.ok (.mk m.name m.depth (pre ++ Item.nothing :: (post ++ B.items)),
          insertLedger ledger c)) := by
  have hlm : loadModule L ledger p = .ok (B, c, insertLedger ledger c) := by
    unfold loadModule
    rw [if_neg hled, hlook]
    show (match parse ccAscii txt with
      | .error e => Except.error (SWLErr.parserError e)
      | .ok mm => Except.ok (mm, c, insertLedger ledger c))
      = Except.ok (B, c, insertLedger ledger c)
    rw [hparse]
  obtain ⟨tl, hni⟩ : ∃ tl, nd.items = Item.attribute ("\"" ++ p ++ "\"") :: tl := by
    cases hn : nd.items with
    | nil => rw [hn] at hfp; exact absurd hfp (by simp)
    | cons it0 tl =>
      rw [hn] at hfp
      simp only [List.head?, Option.some.injEq] at hfp
      exact ⟨tl, by rw [hfp]⟩
  have hflen : m.items.length = pre.length + (1 + post.length) := by
    rw [hsplit]
    simp [List.length_append, List.length_cons]
    omega
  obtain ⟨k, hk⟩ : ∃ k, fuel = pre.length + ((post.length + B.items.length + k) + 1) := by
    refine ⟨fuel - (pre.length + 1 + post.length + B.items.length), ?_⟩
    rw [hflen] at hfuel
    omega
  have hloop : importLoop L fuel [] m.items ledger
      = some (.ok (pre ++ Item.nothing :: (post ++ B.items), insertLedger ledger c)) := by
    rw [hsplit, hk,
      importLoop_skip_prefix L pre hpre _ [] (Item.node nd :: post) ledger,
      List.nil_append,
      importLoop_import_step L _ pre post ledger nd _ tl hnd hni
        (isStringLiteral_quoted p hple)]
    rw [unquote_quoted, hlm]
    show importLoop L (post.length + B.items.length + k) (pre ++ [Item.nothing])
        (post ++ B.items) (insertLedger ledger c)
      = some (.ok (pre ++ Item.nothing :: (post ++ B.items), insertLedger ledger c))
    rw [importLoop_no_imports L (post ++ B.items) ?noimp _ (pre ++ [Item.nothing])
      (insertLedger ledger c) ?len]
    · rw [List.append_assoc, List.singleton_append]
    case noimp =>
      intro it hit
      rcases List.mem_append.mp hit with h2 | h2
      · exact hpost it h2
      · exact hB it h2
    case len =>
      simp only [List.length_append]
      omega
  simp only [importFeature, hm, if_true]
  rw [hloop]

/-- witness for the amended claim C2 at the counterexample input: the
loaded items land at the end, after the importing module's own items. -/
theorem c2_witness :
    importFeature loaderC2 3 modA2 []
      = some (.ok (.mk "module" 0
          [Item.nothing, .node (.mk "func" 1 [.attribute "$a"]),
           .node (.mk "func" 1 [.attribute "$c"])], ["B"])) := by
  have h := c2_amended_import_appends loaderC2 [] modA2
    (.mk "module" 0 [.node (.mk "func" 1 [.attribute "$c"])]) "B" "B"
    "(module (func $c))" [] [.node (.mk "func" 1 [.attribute "$a"])]
    (.mk "import" 1 [.attribute "\"B\"", .node (.mk "file" 2 [])])
    rfl rfl rfl rfl (by decide) (by intro it h2; cases h2)
    (by intro it h2; simp only [Node.items, List.mem_singleton] at h2; subst h2; rfl)
    (by decide) rfl rfl
    (by intro it h2; simp only [Node.items, List.mem_singleton] at h2; subst h2; rfl)
    3 (by decide)
  exact h

/-! ### Claim C3: counterexample -/

/-- Claim C3 says `load_module(p)` canonicalizes `p` and returns the
placeholder `(module)` when the canonical identity was already loaded,
without re-reading or re-parsing the file. The ledger lookup uses the raw
path, however: with a loader canonicalizing `B` to `/B` (as the file system
loader does), a first load records `/B`, yet a second `load_module "B"`
misses the ledger, reads and parses the file again, and returns the full
module `(module (func $c))` instead of the placeholder. -/
theorem c3_counterexample :
    loadModule loaderC3 [] "B" = .ok (modB3, "/B", ["/B"])
    ∧ loadModule loaderC3 ["/B"] "B" = .ok (modB3, "/B", ["/B"])
    ∧ modB3.serialString = "(module (func $c))"
    ∧ modB3.serialString ≠ "(module)" := ⟨rfl, rfl, rfl, by decide⟩

/-! ### Claim C6: counterexample -/

/-- Claim C6 computes the payload length with one unit per character except
that a backslash escape followed by two hex digits counts as one unit; under
that rule the segment `(data (i32.const 65535) "\ab")` has length 1,
`max_addr = 65536`, and the memory attribute must become
`max 1 (ceil (65536 / 65536)) = 1`. The source instead consumes an extra
character after a backslash only when the next character is a decimal digit,
so `\ab` counts 2 units, `max_addr = 65537`, and the source writes page
count 2. -/
theorem c6_counterexample :
    parse ccAscii "(module (memory $x) (data (i32.const 65535) \"\\ab\"))" = .ok modC6
    ∧ (sizeAdjust modC6).map Node.serialString
      = .ok "(module (memory $x 2) (data (i32.const 65535) \"\\ab\"))"
    ∧ claimInterpretedLength ['\\', 'a', 'b'] = 1
    ∧ max 1 ((65535 + claimInterpretedLength ['\\', 'a', 'b'] + 65535) / 65536) = 1 :=
  ⟨rfl, rfl, rfl, by decide⟩

/-! ### Claim C6: amended -/

theorem roundF32near_small {n : Nat} (h : n ≤ 2 ^ 24) : roundF32near n = n := by
  unfold roundF32near
  rw [if_pos h]

/-- Claim C6, amended: with the interpreted length of the source (a
backslash consumes the following character as part of its unit, plus one
more character when that following character is a decimal digit), and for
modules whose `max_addr` stays below `2 ^ 24` (where the `f32` page
computation of the source is exact), size_adjust succeeds on every top-level
module with a well-formed `max_addr` computation, leaves a module without a
memory child unchanged, and otherwise patches the first memory child's first
numeric attribute (appending one if none exists) to exactly
`max 1 (ceil (max_addr / 65536))`, written here as
`max 1 ((A + 65535) / 65536)`. -/
theorem c6_amended_size_adjust (m : Node) (hm : isModule m = true) (A : Nat)
    (hA : maxAddrLoop m.items = .ok A) (hsmall : A < 2 ^ 24) :
    (hasMemoryChild m = false → sizeAdjust m = .ok m)
    ∧ (hasMemoryChild m = true →
        sizeAdjust m = .ok (.mk m.name m.depth
          (patchFirstMemory (toString (max 1 ((A + 65535) / 65536))) m.items))) := by
  constructor
  · intro hmem
    simp only [sizeAdjust, hm, not_true_eq_false, if_false, hA, hmem]
    rfl
  · intro hmem
    simp only [sizeAdjust, hm, not_true_eq_false, if_false, hA, hmem, if_true,
      roundF32near_small (Nat.le_of_lt hsmall)]

/-- witness for the amended claim C6 at the module of the counterexample:
`max_addr = 65537` (offset 65535 plus the two-unit interpreted length of
`\ab`), two pages. -/
theorem c6_witness :
    sizeAdjust modC6 = .ok (.mk "module" 0
      [.node (.mk "memory" 1 [.attribute "$x", .attribute "2"]),
       .node (.mk "data" 1
         [.node (.mk "i32.const" 2 [.attribute "65535"]),
          .attribute "\"\\ab\""])]) := by
  have h := (c6_amended_size_adjust modC6 rfl 65537 rfl (by decide)).2 rfl
  exact h

/-! ### Claim C7: counterexample -/

/-- Claim C7 says every node's depth field always equals its structural
nesting depth, citing start_merge as a client. But `start_merge` builds its
merger function and the fresh start directive with depth 0 and appends them
to the depth-0 module, where `append_node` adds the parent depth 0, leaving
recorded depth 0 on nodes whose structural depth is 1: on the parsed module
`(module (func $t1) (start $t1) (func $t2) (start $t2))` the invariant is
false after the pass. -/
theorem c7_counterexample :
    parse ccAscii "(module (func $t1) (start $t1) (func $t2) (start $t2))" = .ok modC7
    ∧ (startMerge modC7).map (depthOkN 0) = .ok false := ⟨rfl, rfl⟩

/-! ### Claim C7: amended -/

/-- Claim C7, amended: `append_node` adds the parent's recorded depth to
every depth of the appended subtree, so the depth invariant is preserved
whenever the appended subtree's depths are correct relative to a parent of
depth 0 (its root recording 1), as parsed subtrees are; it is not an
unconditional invariant, since start_merge appends nodes built with root
depth 0 (see the counterexample). -/
theorem c7_amended_append_node_depth (parent child : Node) (d : Nat)
    (hp : depthOkN d parent = true) (hc : depthOkN 1 child = true) :
    depthOkN d (parent.appendNode child) = true := by
  obtain ⟨nm, dp, its⟩ := parent
  simp only [depthOkN, Bool.and_eq_true, beq_iff_eq] at hp
  obtain ⟨h1, h2⟩ := hp
  subst h1
  simp only [Node.appendNode, Node.name, Node.depth, Node.items, depthOkN,
    Bool.and_eq_true, beq_iff_eq]
  refine ⟨trivial, ?_⟩
  rw [depthOkItems_append]
  have hshift := shiftDepth_depthOk dp 1 child hc
  have hone : depthOkItems dp [Item.node (child.shiftDepth dp)] = true := by
    simp only [depthOkItems, Bool.and_eq_true]
    exact ⟨by rwa [Nat.add_comm] at hshift, trivial⟩
  rw [h2, hone]
  rfl

/-- witness for the amended claim C7: appending the parsed subtree
`(func (a))` (root depth 1) to a well-formed module preserves the
invariant. -/
theorem c7_witness :
    depthOkN 0 ((Node.mk "module" 0 [.node (.mk "func" 1 [.attribute "$x"])]).appendNode
      (.mk "func" 1 [.node (.mk "a" 2 [])])) = true :=
  c7_amended_append_node_depth _ _ 0 (by decide) (by decide)

/-! ### Claim C3: amended -/

/-- Claim C3, amended: `load_module(p)` looks `p` itself up in the ledger,
whose recorded keys are the canonical identities of previously loaded files;
on a hit it returns the parsed placeholder text `(module)` together with the
stored identity, without consulting the loader at all (the conclusion does
not depend on `L`); on a miss it raw-loads `p`, records the canonical
identity, and parses the file contents. Deduplication therefore fires
exactly when the requested path equals an already-recorded canonical
identity; the path is not canonicalized before the lookup. -/
theorem c3_amended_ledger_lookup (L : Loader) (ledger : List String) (p : String) :
    (p ∈ ledger → loadModule L ledger p = .ok (.mk "module" 0 [], p, ledger))
    ∧ (p ∉ ledger → ∀ c txt n, lookupLoader L p = some (c, txt) →
        parse ccAscii txt = .ok n →
        loadModule L ledger p = .ok (n, c, insertLedger ledger c)) := by
  constructor
  · intro hmem
    unfold loadModule
    rw [if_pos hmem]
    rfl
  · intro hmem c txt n hlook hparse
    unfold loadModule
    rw [if_neg hmem, hlook]
    show (match parse ccAscii txt with
      | .error e => Except.error (SWLErr.parserError e)
      | .ok m => Except.ok (m, c, insertLedger ledger c))
      = Except.ok (n, c, insertLedger ledger c)
    rw [hparse]

/-- witness for the amended claim C3: a ledger hit on the recorded canonical
identity returns the placeholder. -/
theorem c3_witness :
    loadModule loaderC3 ["/B"] "/B" = .ok (.mk "module" 0 [], "/B", ["/B"]) :=
  (c3_amended_ledger_lookup loaderC3 ["/B"] "/B").1 (by decide)

/-! ### Claim C8: counterexample -/

/-- Claim C8 requires that in sort's output every node child with an import
descendant precedes every node child without one. The comparator returns
`Equal` on every pair involving a non-node item, so it is not a total order
once an attribute item separates two node children: on the parsed module
`(module (func $a) x (import))` the stable sort leaves the items untouched
and the import child stays behind the import-free `func` child. -/
theorem c8_counterexample :
    parse ccAscii "(module (func $a) x (import))" = .ok modC8
    ∧ frontloadImports modC8 = .ok modC8
    ∧ pairwiseImportOk (nodeChildren modC8.items) = false := ⟨rfl, rfl, rfl⟩

/-! ### Claim C8: amended -/

theorem sortCmp_not_gt_of_imp {a : Node} (b : Item) (ha : hasImportNode a = true) :
    sortCmp (.node a) b ≠ .gt := by
  cases b with
  | node nb =>
    simp only [sortCmp, ha]
    by_cases hb : hasImportNode nb = true
    · simp [hb]
    · simp [hb]
  | nothing => simp [sortCmp]
  | «attribute» v => simp [sortCmp]

theorem sortCmp_gt_of {a b : Node} (ha : hasImportNode a = false)
    (hb : hasImportNode b = true) : sortCmp (.node a) (.node b) = .gt := by
  simp [sortCmp, ha, hb]

theorem sortCmp_not_gt_of_nonimp {a b : Node} (ha : hasImportNode a = false)
    (hb : hasImportNode b = false) : sortCmp (.node a) (.node b) ≠ .gt := by
  simp [sortCmp, ha, hb]

theorem insertSorted_front (x : Item) (l : List Item)
    (h : ∀ y, l.head? = some y → sortCmp x y ≠ .gt) :
    insertSorted sortCmp x l = x :: l := by
  cases l with
  | nil => rfl
  | cons y ys =>
    have hy : sortCmp x y ≠ .gt := h y rfl
    simp [insertSorted, hy]

theorem insertSorted_skip (x : Item) (N : List Item) :
    ∀ F : List Item, (∀ y ∈ F, sortCmp x y = .gt) →
      insertSorted sortCmp x (F ++ N) = F ++ insertSorted sortCmp x N := by
  intro F
  induction F with
  | nil => intro _; rfl
  | cons f fs ih =>
    intro h
    have hf : sortCmp x f = .gt := h f (List.mem_cons_self f fs)
    simp only [List.cons_append, insertSorted, hf, if_pos]
    rw [List.append_eq, ih (fun y hy => h y (List.mem_cons_of_mem f hy))]

/-- a member of an all-node list with a true `impItem` flag is a node with
an import descendant. -/
theorem node_of_mem_filter {xs : List Item} (hall : ∀ it ∈ xs, isNodeItem it = true)
    {p : Item → Bool} {y : Item} (hy : y ∈ xs.filter p) :
    ∃ b : Node, y = Item.node b ∧ p (Item.node b) = true := by
  have hmem := (List.mem_filter.mp hy).1
  have hp := (List.mem_filter.mp hy).2
  have hyn := hall y hmem
  cases y with
  | nothing => exact absurd hyn (by simp [isNodeItem])
  | «attribute» v => exact absurd hyn (by simp [isNodeItem])
  | node b => exact ⟨b, rfl, hp⟩

/-- the stable sort of an all-node item list is the stable partition: items
with an import descendant first, relative order preserved in both blocks. -/
theorem sort_partition :
    ∀ its : List Item, (∀ it ∈ its, isNodeItem it = true) →
      sortByStable sortCmp its
        = its.filter impItem ++ its.filter (fun it => ! impItem it) := by
  intro its
  induction its with
  | nil => intro _; rfl
  | cons x xs ih =>
    intro hall
    have hx := hall x (List.mem_cons_self x xs)
    have hxs : ∀ it ∈ xs, isNodeItem it = true :=
      fun it hit => hall it (List.mem_cons_of_mem x hit)
    cases x with
    | nothing => exact absurd hx (by simp [isNodeItem])
    | «attribute» v => exact absurd hx (by simp [isNodeItem])
    | node a =>
      simp only [sortByStable, ih hxs]
      by_cases ha : hasImportNode a = true
      · have himp : impItem (Item.node a) = true := by simp [impItem, ha]
        rw [insertSorted_front _ _ (fun y _ => sortCmp_not_gt_of_imp y ha)]
        simp [List.filter_cons, himp]
      · have ha2 : hasImportNode a = false := by
          cases h : hasImportNode a
          · rfl
          · exact absurd h ha
        have himp : impItem (Item.node a) = false := by simp [impItem, ha2]
        rw [insertSorted_skip _ _ _ ?gtprf]
        case gtprf =>
          intro y hy
          obtain ⟨b, rfl, hb⟩ := node_of_mem_filter hxs hy
          have hbimp : hasImportNode b = true := by simpa [impItem] using hb
          exact sortCmp_gt_of ha2 hbimp
        have hfront : insertSorted sortCmp (Item.node a) (xs.filter (fun it => ! impItem it))
            = Item.node a :: xs.filter (fun it => ! impItem it) := by
          apply insertSorted_front
          intro y hy
          have hymem : y ∈ xs.filter (fun it => ! impItem it) :=
            List.mem_of_mem_head? (Option.mem_def.mpr hy)
          obtain ⟨b, rfl, hb⟩ := node_of_mem_filter hxs hymem
          have hbimp : hasImportNode b = false := by
            have h3 : (! impItem (Item.node b)) = true := hb
            simpa only [impItem, Bool.not_eq_true'] using h3
          exact sortCmp_not_gt_of_nonimp ha2 hbimp
        rw [hfront]
        simp [List.filter_cons, himp]

theorem pairwise_all_nonimp :
    ∀ Nn : List Node, (∀ b ∈ Nn, hasImportNode b = false) →
      pairwiseImportOk Nn = true := by
  intro Nn
  induction Nn with
  | nil => intro _; rfl
  | cons b bs ih =>
    intro h
    simp only [pairwiseImportOk, Bool.and_eq_true]
    constructor
    · rw [List.all_eq_true]
      intro c hc
      have hcf : hasImportNode c = false := h c (List.mem_cons_of_mem b hc)
      simp [hcf]
    · exact ih (fun c hc => h c (List.mem_cons_of_mem b hc))

theorem pairwise_append_imp :
    ∀ Fn : List Node, (∀ a ∈ Fn, hasImportNode a = true) →
      ∀ Nn : List Node, pairwiseImportOk Nn = true →
        pairwiseImportOk (Fn ++ Nn) = true := by
  intro Fn
  induction Fn with
  | nil => intro _ Nn h; simpa using h
  | cons a as ih =>
    intro h Nn hN
    simp only [List.cons_append, pairwiseImportOk, Bool.and_eq_true]
    constructor
    · rw [List.all_eq_true]
      intro c _
      simp [h a (List.mem_cons_self a as)]
    · exact ih (fun x hx => h x (List.mem_cons_of_mem a hx)) Nn hN

theorem mem_nodeChildren_filter_imp {xs : List Item} {a : Node}
    (ha : a ∈ nodeChildren (xs.filter impItem)) : hasImportNode a = true := by
  obtain ⟨it, hit, hasn⟩ := List.mem_filterMap.mp ha
  have himp := (List.mem_filter.mp hit).2
  cases it with
  | node b =>
    simp only [Item.asNode, Option.some.injEq] at hasn
    subst hasn
    simpa [impItem] using himp
  | nothing => simp [Item.asNode] at hasn
  | «attribute» v => simp [Item.asNode] at hasn

theorem mem_nodeChildren_filter_nonimp {xs : List Item} {a : Node}
    (ha : a ∈ nodeChildren (xs.filter (fun it => ! impItem it))) :
    hasImportNode a = false := by
  obtain ⟨it, hit, hasn⟩ := List.mem_filterMap.mp ha
  have himp := (List.mem_filter.mp hit).2
  cases it with
  | node b =>
    simp only [Item.asNode, Option.some.injEq] at hasn
    subst hasn
    simpa [impItem, Bool.not_eq_true'] using himp
  | nothing => simp [Item.asNode] at hasn
  | «attribute» v => simp [Item.asNode] at hasn

/-- Claim C8, amended: on a top-level module all of whose items are nodes
(the comparator is a total preorder there), sort produces the stable
partition (import-descendant children first, relative order preserved), is
idempotent, and its output satisfies the pairwise ordering property. With
attribute items interleaved the comparator is not transitive and the
property can fail (see the counterexample). -/
theorem c8_amended_sort_partition (m : Node) (hm : isModule m = true)
    (hall : ∀ it ∈ m.items, isNodeItem it = true) :
    frontloadImports m
      = .ok (.mk m.name m.depth
          (m.items.filter impItem ++ m.items.filter (fun it => ! impItem it)))
    ∧ ∀ m2, frontloadImports m = .ok m2 →
        frontloadImports m2 = .ok m2 ∧ pairwiseImportOk (nodeChildren m2.items) = true := by
  obtain ⟨nm, d, its⟩ := m
  simp only [Node.items] at hall
  have h1 : frontloadImports (Node.mk nm d its)
      = .ok (.mk nm d (its.filter impItem ++ its.filter (fun it => ! impItem it))) := by
    simp only [frontloadImports, hm, if_true, Node.name, Node.depth, Node.items]
    rw [sort_partition its hall]
  refine ⟨h1, ?_⟩
  intro m2 hm2
  rw [h1] at hm2
  have hm2e : m2 = Node.mk nm d (its.filter impItem ++ its.filter (fun it => ! impItem it)) := by
    cases hm2
    rfl
  subst hm2e
  have hallF : ∀ it ∈ its.filter impItem, isNodeItem it = true :=
    fun it hit => hall it (List.mem_filter.mp hit).1
  have hallN : ∀ it ∈ its.filter (fun x => ! impItem x), isNodeItem it = true :=
    fun it hit => hall it (List.mem_filter.mp hit).1
  have hall2 : ∀ it ∈ its.filter impItem ++ its.filter (fun x => ! impItem x),
      isNodeItem it = true := by
    intro it hit
    rcases List.mem_append.mp hit with h2 | h2
    · exact hallF it h2
    · exact hallN it h2
  constructor
  · have hmiso : isModule (Node.mk nm d
        (its.filter impItem ++ its.filter (fun it => ! impItem it))) = true := hm
    simp only [frontloadImports, hmiso, if_true, Node.name, Node.depth, Node.items]
    rw [sort_partition _ hall2]
    congr 1
    rw [List.filter_append, List.filter_append]
    have e1 : (its.filter impItem).filter impItem = its.filter impItem :=
      List.filter_eq_self.mpr (fun a ha => (List.mem_filter.mp ha).2)
    have e2 : (its.filter (fun x => ! impItem x)).filter impItem = [] := by
      rw [List.filter_eq_nil_iff]
      intro a ha
      have h3 := (List.mem_filter.mp ha).2
      simp only [Bool.not_eq_true'] at h3
      simp [h3]
    have e3 : (its.filter impItem).filter (fun x => ! impItem x) = [] := by
      rw [List.filter_eq_nil_iff]
      intro a ha
      have h3 := (List.mem_filter.mp ha).2
      simp [h3]
    have e4 : (its.filter (fun x => ! impItem x)).filter (fun x => ! impItem x)
        = its.filter (fun x => ! impItem x) :=
      List.filter_eq_self.mpr (fun a ha => (List.mem_filter.mp ha).2)
    rw [e1, e2, e3, e4, List.append_nil, List.nil_append]
  · simp only [Node.items, nodeChildren, List.filterMap_append]
    exact pairwise_append_imp _ (fun a ha => mem_nodeChildren_filter_imp ha) _
      (pairwise_all_nonimp _ (fun b hb => mem_nodeChildren_filter_nonimp hb))

/-- witness for the amended claim C8: an all-node module
`(module (func $f) (import))` sorts to `(module (import) (func $f))`,
idempotently, with the import child first. -/
theorem c8_witness :
    frontloadImports (Node.mk "module" 0
        [.node (.mk "func" 1 [.attribute "$f"]), .node (.mk "import" 1 [])])
      = .ok (.mk "module" 0
          [.node (.mk "import" 1 []), .node (.mk "func" 1 [.attribute "$f"])]) := by
  have h := (c8_amended_sort_partition (Node.mk "module" 0
      [.node (.mk "func" 1 [.attribute "$f"]), .node (.mk "import" 1 [])]) rfl
      (by intro it hit; fin_cases hit <;> rfl)).1
  exact h

/-! ### Claim C9: counterexample -/

/-- Claim C9 says a module with zero or one start directive is left
unchanged by start_merge, its serialization equal before and after. With one
directive that is not the last item the directive is extracted (leaving a
tombstone) and re-appended at the end, so the serialization changes:
`(module (start $a) (func $b))` becomes `(module (func $b) (start $a))`. -/
theorem c9_counterexample :
    parse ccAscii "(module (start $a) (func $b))" = .ok modC9
    ∧ modC9.serialString = "(module (start $a) (func $b))"
    ∧ (startMerge modC9).map Node.serialString = .ok "(module (func $b) (start $a))"
    ∧ ("(module (func $b) (start $a))" : String) ≠ "(module (start $a) (func $b))" :=
  ⟨rfl, rfl, rfl, by decide⟩

/-! ### Claim C9: amended -/

theorem extractStarts_no_starts :
    ∀ its : List Item, (∀ it ∈ its, isStartItem it = false) → extractStarts its = (its, []) := by
  intro its
  induction its with
  | nil => intro _; rfl
  | cons it rest ih =>
    intro h
    have hrest := ih (fun x hx => h x (List.mem_cons_of_mem it hx))
    have hit := h it (List.mem_cons_self it rest)
    cases it with
    | node n =>
      simp only [isStartItem, beq_eq_false_iff_ne, ne_eq] at hit
      simp only [extractStarts, hrest, if_neg hit]
    | nothing => simp only [extractStarts, hrest]
    | «attribute» a => simp only [extractStarts, hrest]

theorem extractStarts_single :
    ∀ (pre : List Item) (s : Node) (post : List Item),
      (∀ it ∈ pre, isStartItem it = false) → s.name = "start" →
      (∀ it ∈ post, isStartItem it = false) →
      extractStarts (pre ++ Item.node s :: post) = (pre ++ Item.nothing :: post, [s]) := by
  intro pre
  induction pre with
  | nil =>
    intro s post _ hs hpost
    simp only [List.nil_append]
    simp only [extractStarts, extractStarts_no_starts post hpost, if_pos hs]
  | cons it rest ih =>
    intro s post hpre hs hpost
    have hit := hpre it (List.mem_cons_self it rest)
    have hrest := ih s post (fun x hx => hpre x (List.mem_cons_of_mem it hx)) hs hpost
    cases it with
    | node n =>
      simp only [isStartItem, beq_eq_false_iff_ne, ne_eq] at hit
      simp only [List.cons_append, extractStarts, List.append_eq, hrest, if_neg hit]
    | nothing => simp only [List.cons_append, extractStarts, List.append_eq, hrest]
    | «attribute» a => simp only [List.cons_append, extractStarts, List.append_eq, hrest]

/-- Claim C9, amended: on a top-level module, start_merge succeeds; with no
start directive among the items the module is returned unchanged; with
exactly one start directive, that directive is extracted (a tombstone is
left in its position, which the serialization omits) and re-appended as the
last item, so the serialization is unchanged exactly when the directive
already was the last item. -/
theorem c9_amended_start_merge (m : Node) (hm : isModule m = true) :
    ((∀ it ∈ m.items, isStartItem it = false) → startMerge m = .ok m)
    ∧ (∀ pre post s, m.items = pre ++ Item.node s :: post → s.name = "start" →
        (∀ it ∈ pre, isStartItem it = false) → (∀ it ∈ post, isStartItem it = false) →
        startMerge m = .ok (.mk m.name m.depth (pre ++ Item.nothing :: (post ++ [Item.node s])))) := by
  obtain ⟨nm, d, its⟩ := m
  have hd : d = 0 := by
    simp only [isModule, Bool.and_eq_true, beq_iff_eq, Node.depth] at hm
    exact hm.1
  subst hd
  constructor
  · intro h
    simp only [Node.items] at h
    simp only [startMerge, hm, not_true_eq_false, if_false, Node.items,
      extractStarts_no_starts its h]
    rfl
  · intro pre post s hsplit hs hpre hpost
    simp only [Node.items] at hsplit
    rw [hsplit] at hm
    simp only [startMerge, hm, not_true_eq_false, if_false, Node.items, hsplit,
      extractStarts_single pre s post hpre hs hpost]
    simp only [List.length_singleton, Nat.le_refl, if_pos, List.foldl_cons, List.foldl_nil]
    simp only [Node.appendNode, Node.name, Node.depth, Node.items, shiftDepth_zero]
    rw [List.append_assoc, List.cons_append]

/-- witness for the amended claim C9 at the module of the counterexample:
`(module (start $a) (func $b))` keeps its items with the start directive
moved to the end. -/
theorem c9_witness :
    startMerge modC9 = .ok (.mk "module" 0
      [Item.nothing, .node (.mk "func" 1 [.attribute "$b"]),
       .node (.mk "start" 1 [.attribute "$a"])]) :=
  (c9_amended_start_merge modC9 rfl).2 [] [.node (.mk "func" 1 [.attribute "$b"])]
    (.mk "start" 1 [.attribute "$a"]) rfl rfl (by intro it h; cases h)
    (by intro it h; simp at h; subst h; rfl)

/-! ### Claim C10: counterexample -/

/-- Claim C10 says the constexpr feature succeeds on every top-level module
containing a memory operation carrying the attribute
`offset=(i32.constexpr (i32.add (i32.const 8) (i32.const 4)))`, assuming a
correct oracle. `modC10` carries exactly that attribute on its `i32.store`
child (second conjunct), and `oracleTwelve` answers `12` to every request,
in particular correctly to the one synthesized module of that attribute; yet
the feature fails, because `process_constexpr` first aborts on the further
node `(lol.constexpr)` with `UnknownType("lol")` before any offset is
rewritten. -/
theorem c10_counterexample :
    constexprFeature oracleTwelve modC10 = .error (.unknownType "lol")
    ∧ (modC10.preorder.any (fun n =>
        isMemop n && (n.items.filterMap Item.asAttribute).any
          (fun a => a == offsetAttrC10))) = true := ⟨rfl, rfl⟩

/-! ### Claim C10: amended -/

mutual
theorem procCE_id (oracle : EvalOracle) (prel : String) :
    ∀ n : Node, hasConstexprs n = false → procCE oracle prel n = .ok n
  | .mk nm d its, h => by
    have hh : isConstexprNode (Node.mk nm d its) = false
        ∧ (preorderItems its).any isConstexprNode = false := by
      have h2 : (Node.mk nm d its).preorder.any isConstexprNode = false := h
      rw [Node.preorder, List.any_cons] at h2
      exact ⟨(Bool.or_eq_false_iff.mp h2).1, (Bool.or_eq_false_iff.mp h2).2⟩
    rw [procCE, if_neg (by simp [hh.1]), procCEItems_id oracle prel its hh.2]

theorem procCEItems_id (oracle : EvalOracle) (prel : String) :
    ∀ its : List Item, (preorderItems its).any isConstexprNode = false →
      procCEItems oracle prel its = .ok its
  | [], _ => rfl
  | .node x :: rest, h => by
    have h2 : (preorderItems (.node x :: rest)).any isConstexprNode = false := h
    rw [preorderItems, List.any_append] at h2
    have hx := (Bool.or_eq_false_iff.mp h2).1
    have hr := (Bool.or_eq_false_iff.mp h2).2
    rw [procCEItems, procCE_id oracle prel x hx, procCEItems_id oracle prel rest hr]
  | .nothing :: rest, h => by
    have h2 : (preorderItems rest).any isConstexprNode = false := h
    show (match procCEItems oracle prel rest with
      | .error e => Except.error e
      | .ok rest2 => Except.ok (Item.nothing :: rest2)) = Except.ok (Item.nothing :: rest)
    rw [procCEItems_id oracle prel rest h2]
  | .attribute a :: rest, h => by
    have h2 : (preorderItems rest).any isConstexprNode = false := h
    show (match procCEItems oracle prel rest with
      | .error e => Except.error e
      | .ok rest2 => Except.ok (Item.attribute a :: rest2))
      = Except.ok (Item.attribute a :: rest)
    rw [procCEItems_id oracle prel rest h2]
end

theorem scanMemarg_eq (oracle : EvalOracle) (prel : String) :
    ∀ its : List Item, scanMemarg oracle prel its
      = (match firstOffsetAttr its with
         | none => .ok none
         | some a => procOffAttr oracle prel a) := by
  intro its
  induction its with
  | nil => rfl
  | cons it rest ih =>
    cases it with
    | node n => simpa [scanMemarg, firstOffsetAttr] using ih
    | nothing => simpa [scanMemarg, firstOffsetAttr] using ih
    | «attribute» a =>
      by_cases ha : startsWithStr a "offset=" = true
      · simp [scanMemarg, firstOffsetAttr, ha]
      · simp only [scanMemarg, firstOffsetAttr, ha, if_false, Bool.false_eq_true]
        exact ih

theorem procOffAttr_c10 (oracle : EvalOracle) (prel : String)
    (horacle : oracle "i32"
        (mkEvalWat prel "i32" "(i32.add (i32.const 8) (i32.const 4))") = .ok "12") :
    procOffAttr oracle prel offsetAttrC10 = .ok (some "offset=12") := by
  have h0 : procOffAttr oracle prel offsetAttrC10
      = (match oracle "i32"
            (mkEvalWat prel "i32" "(i32.add (i32.const 8) (i32.const 4))") with
         | .error e => .error e
         | .ok v => .ok (some ("offset=" ++ v))) := rfl
  rw [h0, horacle]
  rfl

theorem procOffAttr_nonparen (oracle : EvalOracle) (prel : String) (a es : String)
    (hsplit : splitEqSecond a = some es) (hpar : ¬ es.toList.take 1 = ['(']) :
    procOffAttr oracle prel a = .ok none := by
  unfold procOffAttr
  rw [hsplit]
  show (if es.toList.take 1 = ['('] then
      (match parse ccAscii es with
       | .error e => Except.error (SWLErr.parserError e)
       | .ok en =>
         let typ := firstSeg en.name
         if typ = "i32" ∨ typ = "i64" ∨ typ = "f32" ∨ typ = "f64" then
           match evalExpr oracle prel typ en with
           | .error e => Except.error e
           | .ok v => Except.ok (some ("offset=" ++ v))
         else Except.error (SWLErr.unknownType typ))
    else Except.ok none) = Except.ok none
  rw [if_neg hpar]

mutual
theorem procOff_rw (oracle : EvalOracle) (prel : String)
    (h12 : procOffAttr oracle prel offsetAttrC10 = .ok (some "offset=12")) :
    ∀ n : Node, benignOffsets n = true → procOff oracle prel n = .ok (c10rewrite n)
  | .mk nm d its, h => by
    have hb : (if isMemop (.mk nm d its) then
        match firstOffsetAttr its with
        | none => true
        | some a =>
          match splitEqSecond a with
          | none => false
          | some es => if es.toList.take 1 = ['('] then a == offsetAttrC10 else true
       else true) = true ∧ benignOffsetsItems its = true := by
      have h2 : benignOffsets (.mk nm d its) = true := h
      rw [benignOffsets, Bool.and_eq_true] at h2
      exact h2
    have hits := procOffItems_rw oracle prel h12 its hb.2
    by_cases hmo : isMemop (.mk nm d its) = true
    · cases hfo : firstOffsetAttr its with
      | none =>
        have hscan : scanMemarg oracle prel its = .ok none := by
          rw [scanMemarg_eq, hfo]
        have hrw : c10rewrite (.mk nm d its) = .mk nm d (c10rewriteItems its) := by
          simp only [c10rewrite, hfo]
        rw [procOff, if_pos hmo, hscan]
        show (match procOffItems oracle prel its with
          | .error e => Except.error e
          | .ok its2 => Except.ok (Node.mk nm d its2))
          = Except.ok (c10rewrite (.mk nm d its))
        rw [hits, hrw]
      | some a =>
        have hscan : scanMemarg oracle prel its = procOffAttr oracle prel a := by
          rw [scanMemarg_eq, hfo]
        have hbs0 := hb.1
        rw [if_pos hmo, hfo] at hbs0
        have hbs : (match splitEqSecond a with
            | none => false
            | some es =>
              if es.toList.take 1 = ['('] then a == offsetAttrC10 else true) = true := hbs0
        by_cases hc : a = offsetAttrC10
        · subst hc
          have hrw : c10rewrite (.mk nm d its)
              = .mk nm d (applyMemarg "offset=12" (c10rewriteItems its)) := by
            simp only [c10rewrite, hfo]
            simp [hmo]
          rw [procOff, if_pos hmo, hscan, h12]
          show (match procOffItems oracle prel its with
            | .error e => Except.error e
            | .ok its2 => Except.ok (Node.mk nm d (applyMemarg "offset=12" its2)))
            = Except.ok (c10rewrite (.mk nm d its))
          rw [hits, hrw]
        · cases hse : splitEqSecond a with
          | none => rw [hse] at hbs; exact absurd hbs (by simp)
          | some es =>
            rw [hse] at hbs
            have hbs2 : (if es.toList.take 1 = ['(']
                then a == offsetAttrC10 else true) = true := hbs
            have hpar : ¬ es.toList.take 1 = ['('] := by
              intro hp
              rw [if_pos hp] at hbs2
              exact hc (by simpa using hbs2)
            have hrw : c10rewrite (.mk nm d its) = .mk nm d (c10rewriteItems its) := by
              simp only [c10rewrite, hfo]
              have : (a == offsetAttrC10) = false := by simp [hc]
              simp [this]
            rw [procOff, if_pos hmo, hscan,
              procOffAttr_nonparen oracle prel a es hse hpar]
            show (match procOffItems oracle prel its with
              | .error e => Except.error e
              | .ok its2 => Except.ok (Node.mk nm d its2))
              = Except.ok (c10rewrite (.mk nm d its))
            rw [hits, hrw]
    · have hrw : c10rewrite (.mk nm d its) = .mk nm d (c10rewriteItems its) := by
        cases hfo : firstOffsetAttr its with
        | none => simp only [c10rewrite, hfo]
        | some a =>
          simp only [c10rewrite, hfo]
          simp [hmo]
      rw [procOff, if_neg hmo]
      show (match procOffItems oracle prel its with
        | .error e => Except.error e
        | .ok its2 => Except.ok (Node.mk nm d its2))
        = Except.ok (c10rewrite (.mk nm d its))
      rw [hits, hrw]

theorem procOffItems_rw (oracle : EvalOracle) (prel : String)
    (h12 : procOffAttr oracle prel offsetAttrC10 = .ok (some "offset=12")) :
    ∀ its : List Item, benignOffsetsItems its = true →
      procOffItems oracle prel its = .ok (c10rewriteItems its)
  | [], _ => rfl
  | .node x :: rest, h => by
    have h2 : (benignOffsets x && benignOffsetsItems rest) = true := h
    rw [Bool.and_eq_true] at h2
    rw [procOffItems, procOff_rw oracle prel h12 x h2.1,
      procOffItems_rw oracle prel h12 rest h2.2]
    rfl
  | .nothing :: rest, h => by
    have h2 : benignOffsetsItems rest = true := h
    show (match procOffItems oracle prel rest with
      | .error e => Except.error e
      | .ok rest2 => Except.ok (Item.nothing :: rest2))
      = Except.ok (c10rewriteItems (Item.nothing :: rest))
    rw [procOffItems_rw oracle prel h12 rest h2]
    rfl
  | .attribute a :: rest, h => by
    have h2 : benignOffsetsItems rest = true := h
    show (match procOffItems oracle prel rest with
      | .error e => Except.error e
      | .ok rest2 => Except.ok (Item.attribute a :: rest2))
      = Except.ok (c10rewriteItems (Item.attribute a :: rest))
    rw [procOffItems_rw oracle prel h12 rest h2]
    rfl
end

/-- Claim C10, amended: on a top-level module that contains no constexpr
node (so `process_constexpr` has nothing to abort on) and whose
memory-operation nodes carry, as first `offset=` attribute, either a
non-parenthesized value or exactly the claim's attribute
`offset=(i32.constexpr (i32.add (i32.const 8) (i32.const 4)))`, the feature
succeeds — assuming the oracle answers `12` for the synthesized module of
that attribute — and rewrites every such claimed attribute to `offset=12`,
leaving everything else unchanged (`c10rewrite`). -/
theorem c10_amended_offset_fold (oracle : EvalOracle) (m : Node)
    (hm : isModule m = true) (hce : hasConstexprs m = false)
    (hben : benignOffsets m = true)
    (horacle : oracle "i32"
        (mkEvalWat (preludeOf m) "i32" "(i32.add (i32.const 8) (i32.const 4))")
      = .ok "12") :
    constexprFeature oracle m = .ok (c10rewrite m) := by
  unfold constexprFeature
  rw [if_neg (by simp [hm]), procCE_id oracle (preludeOf m) m hce]
  exact procOff_rw oracle (preludeOf m)
    (procOffAttr_c10 oracle (preludeOf m) horacle) m hben

/-- witness for the amended claim C10: the module of the counterexample
without its unknown-type constexpr node; the offset attribute folds to
`offset=12`. -/
theorem c10_witness :
    constexprFeature oracleTwelve
      (.mk "module" 0
        [.node (.mk "i32.store" 1
          [.attribute offsetAttrC10, .node (.mk "i32.const" 2 [.attribute "4"])])])
      = .ok (.mk "module" 0
          [.node (.mk "i32.store" 1
            [.attribute "offset=12", .node (.mk "i32.const" 2 [.attribute "4"])])]) := by
  have h := c10_amended_offset_fold oracleTwelve
    (.mk "module" 0
      [.node (.mk "i32.store" 1
        [.attribute offsetAttrC10, .node (.mk "i32.const" 2 [.attribute "4"])])])
    rfl rfl (by decide) rfl
  exact h

/-! ### Claim C5: the parse/serialize round trip -/

theorem eatWsF_norm (cc : CharRules) (fuel : Nat) :
    ∀ l : List Char, normalized cc l → eatWsF cc (fuel + 1) l = some (.ok l)
  | [], _ => rfl
  | c :: t, h => by
    obtain ⟨h1, h2, h3⟩ := h
    simp only [eatWsF, if_neg h2, if_neg h3]
    rw [if_neg (by simp [h1])]

theorem eatWs_norm (cc : CharRules) (l : List Char) (h : normalized cc l) :
    eatWs cc l = .ok l := by
  cases l with
  | nil => rfl
  | cons c t =>
    show (match eatWsF cc (c :: t).length (c :: t) with
      | none => Except.error PErr.diverge
      | some r => r) = .ok (c :: t)
    rw [show (c :: t).length = t.length + 1 from rfl, eatWsF_norm cc t.length (c :: t) h]

theorem eatWs_sep (cc : CharRules) (hs : CCSane cc) (l : List Char)
    (h : normalized cc l) : eatWs cc (' ' :: l) = .ok l := by
  show (match eatWsF cc (' ' :: l).length (' ' :: l) with
    | none => Except.error PErr.diverge
    | some r => r) = .ok l
  have h1 : eatWsF cc (l.length + 1) (' ' :: l) = eatWsF cc l.length l := by
    simp only [eatWsF]
    rw [if_neg (by simp), if_neg (by simp), if_pos hs.ws_space]
  rw [show (' ' :: l).length = l.length + 1 from rfl, h1]
  cases l with
  | nil => rfl
  | cons c t => rw [show (c :: t).length = t.length + 1 from rfl,
      eatWsF_norm cc t.length (c :: t) h]

theorem eatWsF_out_norm (cc : CharRules) :
    ∀ fuel l r, eatWsF cc fuel l = some (.ok r) → normalized cc r := by
  intro fuel
  induction fuel with
  | zero =>
    intro l r h
    cases l with
    | nil =>
      simp only [eatWsF, Option.some.injEq, Except.ok.injEq] at h
      subst h; trivial
    | cons c t =>
      simp only [eatWsF] at h
      exact Option.noConfusion h
  | succ f ih =>
    intro l r h
    cases l with
    | nil =>
      simp only [eatWsF, Option.some.injEq, Except.ok.injEq] at h
      subst h; trivial
    | cons c t =>
      simp only [eatWsF] at h
      split at h
      · exact ih _ _ h
      · rename_i hA
        split at h
        · rename_i hB
          split at h
          · simp at h
          · exact ih _ _ h
        · rename_i hB
          split at h
          · exact ih _ _ h
          · rename_i hws
            simp only [Option.some.injEq, Except.ok.injEq] at h
            subst h
            exact ⟨by simpa using hws, hA, hB⟩

theorem eatWs_out_norm (cc : CharRules) (l r : List Char) (h : eatWs cc l = .ok r) :
    normalized cc r := by
  unfold eatWs at h
  split at h
  · simp at h
  · rename_i x heq
    subst h
    exact eatWsF_out_norm cc l.length l r heq

theorem parseIdentifier_run (cc : CharRules) :
    ∀ l nm r, parseIdentifier cc l = .ok (nm, r) →
      l = nm ++ r ∧ (∀ c ∈ nm, identChar cc c = true) ∧
      ∃ c t, r = c :: t ∧ identChar cc c = false := by
  intro l
  induction l with
  | nil => intro nm r h; simp [parseIdentifier] at h
  | cons c t ih =>
    intro nm r h
    simp only [parseIdentifier] at h
    split at h
    · rename_i hc
      cases hrec : parseIdentifier cc t with
      | error e => rw [hrec] at h; simp [Except.map] at h
      | ok p =>
        obtain ⟨nm1, r1⟩ := p
        rw [hrec] at h
        simp only [Except.map, Except.ok.injEq, Prod.mk.injEq] at h
        obtain ⟨h1, h2⟩ := h
        obtain ⟨he, hall, c2, t2, hr, hc2⟩ := ih nm1 r1 hrec
        subst h1; subst h2; subst he
        refine ⟨rfl, ?_, c2, t2, hr, hc2⟩
        intro x hx
        rcases List.mem_cons.mp hx with rfl | hx
        · exact hc
        · exact hall x hx
    · rename_i hc
      simp only [Except.ok.injEq, Prod.mk.injEq] at h
      obtain ⟨h1, h2⟩ := h
      subst h1; subst h2
      exact ⟨rfl, by simp, c, t, rfl, by simpa using hc⟩

theorem parseIdentifier_spec (cc : CharRules) :
    ∀ nm r c t, (∀ x ∈ nm, identChar cc x = true) → r = c :: t →
      identChar cc c = false → parseIdentifier cc (nm ++ r) = .ok (nm, r) := by
  intro nm
  induction nm with
  | nil =>
    intro r c t hall hr hc
    subst hr
    simp only [List.nil_append, parseIdentifier]
    rw [if_neg (by simp [hc])]
  | cons x nm1 ih =>
    intro r c t hall hr hc
    have hx : identChar cc x = true := hall x (by simp)
    simp only [List.cons_append, parseIdentifier, List.append_eq]
    rw [if_pos hx, ih r c t (fun y hy => hall y (by simp [hy])) hr hc]
    rfl

/-- the `cons` unfolding of `stringTail` as a rewrite rule (the automatically
generated equations split on the tail because of the nested escape match). -/
theorem stringTail_cons (c : Char) (rest : List Char) :
    stringTail (c :: rest) =
      (if c = '"' then .ok (['"'], rest)
       else if c = '\\' then
         match rest with
         | [] => .error .unexpectedEOF
         | d :: rest2 => (stringTail rest2).map (fun p => (c :: d :: p.1, p.2))
       else (stringTail rest).map (fun p => (c :: p.1, p.2))) := by
  cases rest <;> rfl

theorem stringTail_run (n : Nat) :
    ∀ l s r, l.length ≤ n → stringTail l = .ok (s, r) →
      l = s ++ r ∧ ∀ σ, stringTail (s ++ σ) = .ok (s, σ) := by
  induction n with
  | zero =>
    intro l s r hn h
    have : l = [] := by cases l <;> simp_all
    subst this
    simp [stringTail] at h
  | succ n ih =>
    intro l s r hn h
    cases l with
    | nil => simp [stringTail] at h
    | cons c t =>
      rw [stringTail_cons] at h
      split at h
      · rename_i hq
        subst hq
        simp only [Except.ok.injEq, Prod.mk.injEq] at h
        obtain ⟨h1, h2⟩ := h
        subst h1; subst h2
        refine ⟨rfl, fun σ => ?_⟩
        rw [List.singleton_append, stringTail_cons]
        rfl
      · rename_i hq
        split at h
        · rename_i hbs
          subst hbs
          split at h
          · simp at h
          · rename_i d t2
            cases hrec : stringTail t2 with
            | error e => rw [hrec] at h; simp [Except.map] at h
            | ok p =>
              obtain ⟨p1, p2⟩ := p
              rw [hrec] at h
              simp only [Except.map, Except.ok.injEq, Prod.mk.injEq] at h
              obtain ⟨h1, h2⟩ := h
              subst h1; subst h2
              obtain ⟨he, hst⟩ := ih t2 p1 p2 (by simp at hn; omega) hrec
              refine ⟨by simp [he], fun σ => ?_⟩
              show Except.map (fun p => ('\\' :: d :: p.1, p.2)) (stringTail (p1 ++ σ))
                = .ok ('\\' :: d :: p1, σ)
              rw [hst σ]
              rfl
        · rename_i hbs
          cases hrec : stringTail t with
          | error e => rw [hrec] at h; simp [Except.map] at h
          | ok p =>
            obtain ⟨p1, p2⟩ := p
            rw [hrec] at h
            simp only [Except.map, Except.ok.injEq, Prod.mk.injEq] at h
            obtain ⟨h1, h2⟩ := h
            subst h1; subst h2
            obtain ⟨he, hst⟩ := ih t p1 p2 (by simp at hn; omega) hrec
            refine ⟨by simp [he], fun σ => ?_⟩
            rw [List.cons_append, stringTail_cons, if_neg hq, if_neg hbs, hst σ]
            rfl

theorem attrScan_run (cc : CharRules) :
    ∀ l a r, attrScan cc l = .ok (a, r) →
      l = a ++ r ∧ ∀ x τ, (x = ')' ∨ cc.ws x = true) → x ≠ '"' →
        attrScan cc (a ++ x :: τ) = .ok (a, x :: τ) := by
  intro l
  induction l with
  | nil => intro a r h; simp [attrScan] at h
  | cons c t ih =>
    intro a r h
    simp only [attrScan] at h
    split at h
    · rename_i hq
      subst hq
      cases hrec : stringTail t with
      | error e => rw [hrec] at h; simp [Except.map] at h
      | ok p =>
        obtain ⟨p1, p2⟩ := p
        rw [hrec] at h
        simp only [Except.map, Except.ok.injEq, Prod.mk.injEq] at h
        obtain ⟨h1, h2⟩ := h
        subst h1; subst h2
        obtain ⟨he, hst⟩ := stringTail_run t.length t p1 p2 le_rfl hrec
        refine ⟨by simp [he], fun x τ hx hxq => ?_⟩
        show Except.map (fun p => ('"' :: p.1, p.2)) (stringTail (p1 ++ x :: τ))
          = .ok ('"' :: p1, x :: τ)
        rw [hst (x :: τ)]
        rfl
    · rename_i hq
      split at h
      · rename_i hstop
        simp only [Except.ok.injEq, Prod.mk.injEq] at h
        obtain ⟨h1, h2⟩ := h
        subst h1; subst h2
        refine ⟨rfl, fun x τ hx hxq => ?_⟩
        show attrScan cc (x :: τ) = .ok ([], x :: τ)
        simp only [attrScan]
        rw [if_neg hxq, if_pos ?hcnd]
        case hcnd =>
          cases hx with
          | inl hp => subst hp; simp
          | inr hp => simp [hp]
      · rename_i hstop
        cases hrec : attrScan cc t with
        | error e => rw [hrec] at h; simp [Except.map] at h
        | ok p =>
          obtain ⟨p1, p2⟩ := p
          rw [hrec] at h
          simp only [Except.map, Except.ok.injEq, Prod.mk.injEq] at h
          obtain ⟨h1, h2⟩ := h
          subst h1; subst h2
          obtain ⟨he, hsc⟩ := ih p1 p2 hrec
          refine ⟨by simp [he], fun x τ hx hxq => ?_⟩
          show attrScan cc (c :: (p1 ++ x :: τ)) = .ok (c :: p1, x :: τ)
          simp only [attrScan]
          rw [if_neg hq, if_neg hstop, hsc x τ hx hxq]
          rfl

theorem attrScan_head (cc : CharRules) (c : Char) (t a r : List Char)
    (h : attrScan cc (c :: t) = .ok (a, r)) (hws : cc.ws c = false)
    (hrp : c ≠ ')') : ∃ t0, a = c :: t0 := by
  simp only [attrScan] at h
  split at h
  · rename_i hq
    subst hq
    cases hrec : stringTail t with
    | error e => rw [hrec] at h; simp [Except.map] at h
    | ok p =>
      rw [hrec] at h
      obtain ⟨p1, p2⟩ := p
      simp only [Except.map, Except.ok.injEq, Prod.mk.injEq] at h
      exact ⟨p1, h.1.symm⟩
  · rename_i hq
    split at h
    · rename_i hstop
      exact absurd hstop (by simp [hws, hrp])
    · rename_i hstop
      cases hrec : attrScan cc t with
      | error e => rw [hrec] at h; simp [Except.map] at h
      | ok p =>
        rw [hrec] at h
        obtain ⟨p1, p2⟩ := p
        simp only [Except.map, Except.ok.injEq, Prod.mk.injEq] at h
        exact ⟨p1, h.1.symm⟩

theorem rpar_norm (cc : CharRules) (hs : CCSane cc) (rest : List Char) :
    normalized cc (')' :: rest) :=
  ⟨hs.ws_rpar, by simp, by simp⟩

theorem serialFiltered_nil (cc : CharRules) (d : Nat) :
    ∀ its : List Item, wfItems cc d its → serialFiltered its = [] → its = []
  | [], _, _ => rfl
  | .nothing :: _, h, _ => absurd h (by simp [wfItems])
  | .attribute a :: _, _, h2 => by simp [serialFiltered] at h2
  | .node n :: _, _, h2 => by simp [serialFiltered] at h2

theorem attr_norm (cc : CharRules) (a : String) (hwf : wfAttr cc a)
    (next : List Char) (hnext : next.take 1 = [')'] ∨ next.take 1 = [' ']) :
    normalized cc (a.toList ++ next) := by
  obtain ⟨hne, hlp, hrp, hws, h2, hscan⟩ := hwf
  obtain ⟨c0, t0, he⟩ := List.exists_cons_of_ne_nil hne
  rw [he, List.cons_append]
  refine ⟨?_, ?_, ?_⟩
  · exact hws c0 (by rw [he]; simp)
  · rintro ⟨rfl, htk⟩
    cases t0 with
    | nil =>
      simp only [List.nil_append] at htk
      rcases hnext with hn | hn <;> rw [hn] at htk <;> simp at htk
    | cons c1 t1 =>
      simp only [List.cons_append, List.take, List.cons.injEq] at htk
      refine h2 ?_
      rw [he, htk.1]
      simp [List.take]
  · rintro ⟨rfl, htk⟩
    refine hlp ?_
    rw [he]
    simp [List.take]

theorem serial_shape (nm : String) (dep : Nat) (its : List Item) (σ : List Char) :
    (Node.mk nm dep its).serial ++ σ
      = '(' :: (nm.toList ++ ((if its.length > 0 then
          ' ' :: serialJoin (serialFiltered its) else []) ++ (')' :: σ))) := by
  show ('(' :: nm.toList ++ (if its.length > 0 then
      ' ' :: serialJoin (serialFiltered its) else []) ++ [')']) ++ σ = _
  simp

theorem serial_head_norm (cc : CharRules) (hs : CCSane cc) :
    ∀ n : Node, ∀ d, wfNode cc d n → ∀ σ, normalized cc (n.serial ++ σ) := by
  intro n d hwf σ
  obtain ⟨nm, dep, its⟩ := n
  obtain ⟨hd, hnm, hemp, hits⟩ := hwf
  rw [serial_shape]
  refine ⟨hs.ws_lpar, by simp, ?_⟩
  rintro ⟨-, htk⟩
  cases hnl : nm.toList with
  | cons c nmt =>
    rw [hnl] at htk
    simp only [List.cons_append, List.take, List.cons.injEq] at htk
    have hid : identChar cc c = true := hnm c (by rw [hnl]; simp)
    rw [htk.1] at hid
    exact absurd hid (by simp [hs.id_semi])
  | nil =>
    rw [hnl] at htk
    simp only [List.nil_append] at htk
    by_cases h0 : its.length > 0
    · rw [if_pos h0] at htk
      simp [List.take] at htk
    · rw [if_neg h0] at htk
      simp [List.take] at htk

theorem join_norm (cc : CharRules) (hs : CCSane cc) :
    ∀ its : List Item, ∀ d, wfItems cc d its → ∀ rest,
      normalized cc (serialJoin (serialFiltered its) ++ ')' :: rest)
  | [], _, _, rest => rpar_norm cc hs rest
  | .nothing :: _, _, h, _ => absurd h (by simp [wfItems])
  | .attribute a :: its2, d, h, rest => by
    obtain ⟨ha, h2⟩ := h
    show normalized cc (serialJoin (a.toList :: serialFiltered its2) ++ ')' :: rest)
    cases hF : serialFiltered its2 with
    | nil =>
      show normalized cc (a.toList ++ ')' :: rest)
      exact attr_norm cc a ha _ (Or.inl (by simp [List.take]))
    | cons tk F2 =>
      show normalized cc ((a.toList ++ ' ' :: serialJoin (tk :: F2)) ++ ')' :: rest)
      rw [List.append_assoc]
      exact attr_norm cc a ha _ (Or.inr (by simp [List.take]))
  | .node n :: its2, d, h, rest => by
    obtain ⟨hn, h2⟩ := h
    show normalized cc (serialJoin (n.serial :: serialFiltered its2) ++ ')' :: rest)
    cases hF : serialFiltered its2 with
    | nil =>
      show normalized cc (n.serial ++ ')' :: rest)
      exact serial_head_norm cc hs n d hn _
    | cons tk F2 =>
      show normalized cc ((n.serial ++ ' ' :: serialJoin (tk :: F2)) ++ ')' :: rest)
      rw [List.append_assoc]
      exact serial_head_norm cc hs n d hn _

theorem serial_len_ge (n : Node) : 2 ≤ n.serial.length := by
  obtain ⟨nm, dep, its⟩ := n
  show 2 ≤ ('(' :: nm.toList ++ (if its.length > 0 then
    ' ' :: serialJoin (serialFiltered its) else []) ++ [')']).length
  simp [List.length_append]
  omega

theorem serial_cons (n : Node) : ∃ S, n.serial = '(' :: S := by
  obtain ⟨nm, dep, its⟩ := n
  refine ⟨nm.toList ++ ((if its.length > 0 then
    ' ' :: serialJoin (serialFiltered its) else []) ++ [')']), ?_⟩
  show '(' :: nm.toList ++ (if its.length > 0 then
    ' ' :: serialJoin (serialFiltered its) else []) ++ [')'] = _
  simp

theorem ident_norm (cc : CharRules) (hs : CCSane cc) (c : Char) (t : List Char)
    (hc : identChar cc c = true) : normalized cc (c :: t) := by
  refine ⟨hs.ws_of_ident c hc, ?_, ?_⟩
  · rintro ⟨rfl, -⟩
    exact absurd hc (by simp [hs.id_semi])
  · rintro ⟨rfl, -⟩
    exact absurd hc (by simp [hs.id_lpar])

theorem string_mk_nil (nm : String) (h : nm.toList = []) : String.mk [] = nm := by
  cases nm with
  | mk dat =>
    have h2 : dat = [] := h
    subst h2
    rfl

mutual

theorem parseNodeOK (cc : CharRules) (hs : CCSane cc) :
    ∀ n : Node, ∀ d : Nat, wfNode cc d n → ∀ rest rest' f,
      eatWs cc rest = .ok rest' → 3 * n.serial.length + 1 ≤ f →
      parseNodeF cc f d (n.serial ++ rest) = some (.ok (n, rest'))
  | .mk nm dep its, d, hwf => by
    intro rest rest' f hrest hf
    obtain ⟨hd, hnm, hemp, hits⟩ := hwf
    subst hd
    have hn0 : normalized cc ((Node.mk nm dep its).serial ++ rest) :=
      serial_head_norm cc hs (Node.mk nm dep its) dep ⟨rfl, hnm, hemp, hits⟩ rest
    have he0 : eatWs cc ((Node.mk nm dep its).serial ++ rest)
        = .ok ((Node.mk nm dep its).serial ++ rest) := eatWs_norm cc _ hn0
    have hlen : (Node.mk nm dep its).serial.length
        = nm.toList.length + (if its.length > 0 then
            (serialJoin (serialFiltered its)).length + 1 else 0) + 2 := by
      show ('(' :: nm.toList ++ (if its.length > 0 then
        ' ' :: serialJoin (serialFiltered its) else []) ++ [')']).length = _
      by_cases h0 : its.length > 0
      · rw [if_pos h0, if_pos h0]
        simp [List.length_append]
        omega
      · rw [if_neg h0, if_neg h0]
        simp [List.length_append]
    obtain ⟨g, rfl⟩ : ∃ g, f = g + 1 := ⟨f - 1, by omega⟩
    rw [serial_shape] at he0 ⊢
    rw [serial_shape] at hn0
    by_cases hpos : its.length > 0
    · -- items nonempty: separator space after the name
      rw [if_pos hpos] at he0 hn0 hlen ⊢
      have hjn : normalized cc (serialJoin (serialFiltered its) ++ ')' :: rest) :=
        join_norm cc hs its (dep + 1) hits rest
      have hesep : eatWs cc (' ' :: (serialJoin (serialFiltered its) ++ ')' :: rest))
          = .ok (serialJoin (serialFiltered its) ++ ')' :: rest) :=
        eatWs_sep cc hs _ hjn
      have hitems : itemsLoopF cc g (dep + 1)
          (serialJoin (serialFiltered its) ++ ')' :: rest)
          = some (.ok (its, ')' :: rest)) :=
        itemsLoopOK cc hs its (dep + 1) hits rest g (by omega)
      cases hnl : nm.toList with
      | cons c nmt =>
        rw [hnl] at he0
        have hidn : normalized cc ((c :: nmt) ++
            ((' ' :: serialJoin (serialFiltered its)) ++ ')' :: rest)) :=
          ident_norm cc hs c _ (hnm c (by rw [hnl]; simp))
        have heid : eatWs cc ((c :: nmt) ++
            ((' ' :: serialJoin (serialFiltered its)) ++ ')' :: rest))
            = .ok ((c :: nmt) ++
              ((' ' :: serialJoin (serialFiltered its)) ++ ')' :: rest)) :=
          eatWs_norm cc _ hidn
        have hpid : parseIdentifier cc ((c :: nmt) ++
            ((' ' :: serialJoin (serialFiltered its)) ++ ')' :: rest))
            = .ok (c :: nmt, (' ' :: serialJoin (serialFiltered its)) ++ ')' :: rest) := by
          refine parseIdentifier_spec cc (c :: nmt) _ ' '
            (serialJoin (serialFiltered its) ++ ')' :: rest) ?_ rfl hs.id_space
          intro x hx
          exact hnm x (by rw [hnl]; exact hx)
        simp only [List.cons_append, List.append_assoc,
          List.singleton_append] at hpid heid hesep hitems he0 ⊢
        simp only [parseNodeF, he0, if_true, heid, hpid, hesep, hitems, hrest]
        rw [← hnl]
        rfl
      | nil =>
        -- empty name: the post-paren whitespace lands on the first token
        rw [hnl] at he0
        have hone : parseIdentifier cc (serialJoin (serialFiltered its) ++ ')' :: rest)
            = .ok ([], serialJoin (serialFiltered its) ++ ')' :: rest) := by
          have hemp2 := hemp hnl
          cases its with
          | nil => simp at hpos
          | cons it its2 =>
            cases it with
            | nothing => exact absurd hits (by simp [wfItems])
            | node nn =>
              obtain ⟨S, hS⟩ := serial_cons nn
              rw [show serialFiltered (Item.node nn :: its2)
                = nn.serial :: serialFiltered its2 from rfl]
              cases hF2 : serialFiltered its2 with
              | nil =>
                show parseIdentifier cc (nn.serial ++ ')' :: rest) = _
                rw [hS, List.cons_append]
                have := parseIdentifier_spec cc [] ('(' :: (S ++ ')' :: rest)) '('
                  (S ++ ')' :: rest) (by simp) rfl hs.id_lpar
                simpa using this
              | cons t2 F3 =>
                show parseIdentifier cc ((nn.serial ++
                  ' ' :: serialJoin (t2 :: F3)) ++ ')' :: rest) = _
                rw [hS]
                simp only [List.cons_append, List.append_assoc]
                have := parseIdentifier_spec cc []
                  ('(' :: (S ++ (' ' :: serialJoin (t2 :: F3) ++ ')' :: rest))) '('
                  (S ++ (' ' :: serialJoin (t2 :: F3) ++ ')' :: rest))
                  (by simp) rfl hs.id_lpar
                simpa [serialJoin] using this
            | «attribute» a =>
              have ha : wfAttr cc a :=
                (show wfAttr cc a ∧ wfItems cc (dep + 1) its2 from hits).1
              obtain ⟨c0, t0, he⟩ := List.exists_cons_of_ne_nil ha.1
              have hni : identChar cc c0 = false := by
                have hni' : ∀ c ∈ a.toList.take 1, identChar cc c = false := hemp2
                exact hni' c0 (by rw [he]; simp)
              rw [show serialFiltered (Item.attribute a :: its2)
                = a.toList :: serialFiltered its2 from rfl]
              cases hF2 : serialFiltered its2 with
              | nil =>
                show parseIdentifier cc (a.toList ++ ')' :: rest) = _
                rw [he, List.cons_append]
                have := parseIdentifier_spec cc [] (c0 :: (t0 ++ ')' :: rest)) c0
                  (t0 ++ ')' :: rest) (by simp) rfl hni
                simpa using this
              | cons t2 F3 =>
                show parseIdentifier cc ((a.toList ++
                  ' ' :: serialJoin (t2 :: F3)) ++ ')' :: rest) = _
                rw [he]
                simp only [List.cons_append, List.append_assoc]
                have := parseIdentifier_spec cc []
                  (c0 :: (t0 ++ (' ' :: serialJoin (t2 :: F3) ++ ')' :: rest))) c0
                  (t0 ++ (' ' :: serialJoin (t2 :: F3) ++ ')' :: rest))
                  (by simp) rfl hni
                simpa [serialJoin] using this
        have hejoin : eatWs cc (serialJoin (serialFiltered its) ++ ')' :: rest)
            = .ok (serialJoin (serialFiltered its) ++ ')' :: rest) :=
          eatWs_norm cc _ hjn
        simp only [List.nil_append, List.cons_append, List.append_assoc,
          List.singleton_append] at hone hejoin hesep hitems he0 ⊢
        simp only [parseNodeF, he0, if_true, hesep, hone, hejoin, hitems, hrest]
        rw [string_mk_nil nm hnl]
    · -- empty item list (no separator, the body is just the closing paren)
      rw [if_neg hpos] at he0 hn0 hlen ⊢
      have hitsnil : its = [] := by
        cases its with
        | nil => rfl
        | cons it its2 => simp at hpos
      subst hitsnil
      have hitems : itemsLoopF cc g (dep + 1) (')' :: rest)
          = some (.ok (([] : List Item), ')' :: rest)) := by
        have := itemsLoopOK cc hs [] (dep + 1) True.intro rest g
          (by show 3 * ([] : List Char).length + 3 ≤ g; simp; omega)
        simpa using this
      have herp : eatWs cc (')' :: rest) = .ok (')' :: rest) :=
        eatWs_norm cc _ (rpar_norm cc hs rest)
      cases hnl : nm.toList with
      | cons c nmt =>
        rw [hnl] at he0
        have heid : eatWs cc ((c :: nmt) ++ (')' :: rest))
            = .ok ((c :: nmt) ++ (')' :: rest)) :=
          eatWs_norm cc _ (ident_norm cc hs c _ (hnm c (by rw [hnl]; simp)))
        have hpid : parseIdentifier cc ((c :: nmt) ++ (')' :: rest))
            = .ok (c :: nmt, ')' :: rest) := by
          refine parseIdentifier_spec cc (c :: nmt) _ ')' rest ?_ rfl hs.id_rpar
          intro x hx
          exact hnm x (by rw [hnl]; exact hx)
        simp only [List.cons_append, List.nil_append, List.append_assoc,
          List.singleton_append] at hpid heid hitems he0 ⊢
        simp only [parseNodeF, he0, if_true, heid, hpid, herp, hitems, hrest]
        rw [← hnl]
        rfl
      | nil =>
        rw [hnl] at he0
        have hone : parseIdentifier cc (')' :: rest) = .ok ([], ')' :: rest) := by
          have := parseIdentifier_spec cc [] (')' :: rest) ')' rest (by simp) rfl hs.id_rpar
          simpa using this
        simp only [List.nil_append, List.cons_append, List.append_assoc,
          List.singleton_append] at hone hitems he0 ⊢
        simp only [parseNodeF, he0, if_true, herp, hone, hitems, hrest]
        rw [string_mk_nil nm hnl]

theorem itemsLoopOK (cc : CharRules) (hs : CCSane cc) :
    ∀ its : List Item, ∀ d : Nat, wfItems cc d its → ∀ rest f,
      3 * (serialJoin (serialFiltered its)).length + 3 ≤ f →
      itemsLoopF cc f d (serialJoin (serialFiltered its) ++ ')' :: rest)
        = some (.ok (its, ')' :: rest))
  | [], d, hwf => by
    intro rest f hf
    obtain ⟨g, rfl⟩ : ∃ g, f = g + 1 := ⟨f - 1, by omega⟩
    show itemsLoopF cc (g + 1) d (')' :: rest) = some (.ok ([], ')' :: rest))
    simp only [itemsLoopF, if_true]
  | .nothing :: its2, d, hwf => absurd hwf (by simp [wfItems])
  | .attribute a :: its2, d, hwf => by
    intro rest f hf
    obtain ⟨ha, h2⟩ : wfAttr cc a ∧ wfItems cc d its2 := hwf
    obtain ⟨c0, t0, he⟩ := List.exists_cons_of_ne_nil ha.1
    have hc0rp : ¬c0 = ')' := by
      intro hcc
      exact ha.2.2.1 (by rw [he, hcc]; simp [List.take])
    have hc0lp : ¬c0 = '(' := by
      intro hcc
      exact ha.2.1 (by rw [he, hcc]; simp [List.take])
    obtain ⟨-, hstable⟩ := attrScan_run cc (a.toList ++ [')']) a.toList [')']
      ha.2.2.2.2.2
    rw [show serialFiltered (Item.attribute a :: its2)
      = a.toList :: serialFiltered its2 from rfl] at hf ⊢
    have halen : a.toList.length = t0.length + 1 := by rw [he]; rfl
    cases hF2 : serialFiltered its2 with
    | nil =>
      have hits2 : its2 = [] := serialFiltered_nil cc d its2 h2 hF2
      subst hits2
      show itemsLoopF cc f d (a.toList ++ ')' :: rest)
        = some (.ok ([Item.attribute a], ')' :: rest))
      have hfa : 3 * a.toList.length + 3 ≤ f := by
        simpa [serialJoin] using hf
      obtain ⟨g, rfl⟩ : ∃ g, f = g + 1 := ⟨f - 1, by omega⟩
      obtain ⟨g2, rfl⟩ : ∃ g2, g = g2 + 1 := ⟨g - 1, by omega⟩
      have hscan : attrScan cc (c0 :: (t0 ++ ')' :: rest))
          = .ok (a.toList, ')' :: rest) := by
        rw [← List.cons_append, ← he]
        exact hstable ')' rest (Or.inl rfl) (by decide)
      have herp : eatWs cc (')' :: rest) = .ok (')' :: rest) :=
        eatWs_norm cc _ (rpar_norm cc hs rest)
      rw [he, List.cons_append]
      simp only [itemsLoopF, parseItemF]
      rw [if_neg hc0rp, if_neg hc0lp]
      simp only [hscan, herp, if_true]
      rfl
    | cons tk F2 =>
      rw [hF2] at hf
      show itemsLoopF cc f d ((a.toList ++ ' ' :: serialJoin (tk :: F2)) ++ ')' :: rest)
        = some (.ok (Item.attribute a :: its2, ')' :: rest))
      have hfa : 3 * (a.length + 1 + (serialJoin (tk :: F2)).length) + 3 ≤ f := by
        have := hf
        simp [serialJoin, List.length_append] at this
        omega
      obtain ⟨g, rfl⟩ : ∃ g, f = g + 1 := ⟨f - 1, by omega⟩
      obtain ⟨g2, rfl⟩ : ∃ g2, g = g2 + 1 := ⟨g - 1, by omega⟩
      have hjn2 : normalized cc (serialJoin (serialFiltered its2) ++ ')' :: rest) :=
        join_norm cc hs its2 d h2 rest
      rw [hF2] at hjn2
      have hscan : attrScan cc (c0 :: (t0 ++ (' ' :: (serialJoin (tk :: F2) ++ ')' :: rest))))
          = .ok (a.toList, ' ' :: (serialJoin (tk :: F2) ++ ')' :: rest)) := by
        rw [← List.cons_append, ← he]
        exact hstable ' ' _ (Or.inr hs.ws_space) (by decide)
      have hesep : eatWs cc (' ' :: (serialJoin (tk :: F2) ++ ')' :: rest))
          = .ok (serialJoin (tk :: F2) ++ ')' :: rest) :=
        eatWs_sep cc hs _ hjn2
      have hejoin : eatWs cc (serialJoin (tk :: F2) ++ ')' :: rest)
          = .ok (serialJoin (tk :: F2) ++ ')' :: rest) :=
        eatWs_norm cc _ hjn2
      have hrec : itemsLoopF cc (g2 + 1) d (serialJoin (tk :: F2) ++ ')' :: rest)
          = some (.ok (its2, ')' :: rest)) := by
        have := itemsLoopOK cc hs its2 d h2 rest (g2 + 1) (by rw [hF2]; omega)
        rw [hF2] at this
        exact this
      simp only [itemsLoopF] at hrec
      rw [he]
      simp only [List.cons_append, List.append_assoc, List.singleton_append]
      simp only [itemsLoopF, parseItemF]
      rw [if_neg hc0rp, if_neg hc0lp]
      simp only [hscan, hesep, hejoin, hrec, if_true]
      rfl
  | .node n :: its2, d, hwf => by
    intro rest f hf
    obtain ⟨hn, h2⟩ : wfNode cc d n ∧ wfItems cc d its2 := hwf
    obtain ⟨S, hS⟩ := serial_cons n
    rw [show serialFiltered (Item.node n :: its2)
      = n.serial :: serialFiltered its2 from rfl] at hf ⊢
    have hlen2 := serial_len_ge n
    cases hF2 : serialFiltered its2 with
    | nil =>
      have hits2 : its2 = [] := serialFiltered_nil cc d its2 h2 hF2
      subst hits2
      show itemsLoopF cc f d (n.serial ++ ')' :: rest)
        = some (.ok ([Item.node n], ')' :: rest))
      have hfa : 3 * n.serial.length + 3 ≤ f := by
        simpa [serialJoin] using hf
      obtain ⟨g, rfl⟩ : ∃ g, f = g + 1 := ⟨f - 1, by omega⟩
      obtain ⟨g2, rfl⟩ : ∃ g2, g = g2 + 1 := ⟨g - 1, by omega⟩
      have herp : eatWs cc (')' :: rest) = .ok (')' :: rest) :=
        eatWs_norm cc _ (rpar_norm cc hs rest)
      have hnode : parseNodeF cc g2 d (n.serial ++ ')' :: rest)
          = some (.ok (n, ')' :: rest)) :=
        parseNodeOK cc hs n d hn (')' :: rest) (')' :: rest) g2 herp (by omega)
      rw [hS, List.cons_append]
      simp only [itemsLoopF, parseItemF, if_true, if_false]
      rw [← List.cons_append, ← hS]
      simp only [hnode, herp, if_true]
      rfl
    | cons tk F2 =>
      rw [hF2] at hf
      show itemsLoopF cc f d ((n.serial ++ ' ' :: serialJoin (tk :: F2)) ++ ')' :: rest)
        = some (.ok (Item.node n :: its2, ')' :: rest))
      have hfa : 3 * (n.serial.length + 1 + (serialJoin (tk :: F2)).length) + 3 ≤ f := by
        have := hf
        simp [serialJoin, List.length_append] at this
        omega
      obtain ⟨g, rfl⟩ : ∃ g, f = g + 1 := ⟨f - 1, by omega⟩
      obtain ⟨g2, rfl⟩ : ∃ g2, g = g2 + 1 := ⟨g - 1, by omega⟩
      have hjn2 : normalized cc (serialJoin (serialFiltered its2) ++ ')' :: rest) :=
        join_norm cc hs its2 d h2 rest
      rw [hF2] at hjn2
      have hesep : eatWs cc (' ' :: (serialJoin (tk :: F2) ++ ')' :: rest))
          = .ok (serialJoin (tk :: F2) ++ ')' :: rest) :=
        eatWs_sep cc hs _ hjn2
      have hejoin : eatWs cc (serialJoin (tk :: F2) ++ ')' :: rest)
          = .ok (serialJoin (tk :: F2) ++ ')' :: rest) :=
        eatWs_norm cc _ hjn2
      have hnode : parseNodeF cc g2 d
          (n.serial ++ (' ' :: (serialJoin (tk :: F2) ++ ')' :: rest)))
          = some (.ok (n, serialJoin (tk :: F2) ++ ')' :: rest)) :=
        parseNodeOK cc hs n d hn _ _ g2 hesep (by omega)
      have hrec : itemsLoopF cc (g2 + 1) d (serialJoin (tk :: F2) ++ ')' :: rest)
          = some (.ok (its2, ')' :: rest)) := by
        have := itemsLoopOK cc hs its2 d h2 rest (g2 + 1) (by rw [hF2]; omega)
        rw [hF2] at this
        exact this
      simp only [itemsLoopF] at hrec
      rw [hS]
      simp only [List.cons_append, List.append_assoc, List.singleton_append]
      simp only [itemsLoopF, parseItemF, if_true, if_false]
      rw [← List.cons_append, ← hS]
      simp only [hnode, hejoin, hrec, if_true]
      rfl

end

mutual

theorem parseNodeF_wf (cc : CharRules) :
    ∀ f d l n r, parseNodeF cc f d l = some (.ok (n, r)) →
      wfNode cc d n ∧ normalized cc r
  | 0, d, l, n, r => by
    intro h
    simp [parseNodeF] at h
  | f + 1, d, l, n, r => by
    intro h
    simp only [parseNodeF] at h
    split at h
    · simp at h
    · rename_i l1 heat1
      split at h
      · simp at h
      · rename_i c rest1
        split at h
        · rename_i hcpar
          split at h
          · simp at h
          · rename_i l1b heat2
            split at h
            · simp at h
            · rename_i nm l2 hident
              split at h
              · simp at h
              · rename_i l3 heat3
                split at h
                · simp at h
                · simp at h
                · rename_i its l4 hloop
                  cases l4 with
                  | nil => simp at h
                  | cons c4 t4 =>
                  split at h
                  · rename_i l5 heq4
                    split at h
                    · simp at h
                    · rename_i l6 heat4
                      simp only [Option.some.injEq, Except.ok.injEq,
                        Prod.mk.injEq] at h
                      obtain ⟨h1, h2⟩ := h
                      subst h1
                      subst h2
                      have hnorm3 : normalized cc l3 := eatWs_out_norm cc l2 l3 heat3
                      obtain ⟨hwfits, hrel⟩ :=
                        itemsLoopF_wf cc f (d + 1) l3 its (c4 :: t4) hnorm3 hloop
                      obtain ⟨hpre, hnames, c2, t2, hl2, hc2⟩ :=
                        parseIdentifier_run cc l1b nm l2 hident
                      refine ⟨⟨rfl, ?_, ?_, hwfits⟩, eatWs_out_norm cc l5 _ heat4⟩
                      · intro x hx
                        exact hnames x hx
                      · intro hnm0
                        have hnmnil : nm = [] := hnm0
                        subst hnmnil
                        have hnorm1b : normalized cc l1b :=
                          eatWs_out_norm cc rest1 l1b heat2
                        have hl1b : l1b = l2 := by simpa using hpre
                        have hl3 : l3 = l2 := by
                          rw [hl1b] at hnorm1b
                          rw [eatWs_norm cc l2 hnorm1b] at heat3
                          exact (Except.ok.inj heat3).symm
                        subst hl3
                        subst hl2
                        cases its with
                        | nil => exact True.intro
                        | cons it its2 =>
                          cases it with
                          | nothing => exact True.intro
                          | node nn => exact True.intro
                          | «attribute» a =>
                            have hrel2 : a.toList.take 1 = (c2 :: t2).take 1 := hrel
                            intro x hx
                            rw [hrel2] at hx
                            simp only [List.take, List.mem_singleton] at hx
                            subst hx
                            exact hc2
                  · simp at h
        · rename_i hcpar
          simp at h

theorem parseItemF_wf (cc : CharRules) :
    ∀ f d l it r, normalized cc l → l.take 1 ≠ [')'] →
      parseItemF cc f d l = some (.ok (it, r)) →
      wfItem cc d it ∧ normalized cc r ∧
      (∀ nn, it = .node nn → l.take 1 = ['(']) ∧
      (∀ a, it = .attribute a → a.toList.take 1 = l.take 1)
  | 0, d, l, it, r => by
    intro hnl hrp h
    simp [parseItemF] at h
  | f + 1, d, l, it, r => by
    intro hnl hrp h
    simp only [parseItemF] at h
    split at h
    · simp at h
    · rename_i c t
      split at h
      · rename_i hcpar
        split at h
        · simp at h
        · simp at h
        · rename_i nn rr hnode
          simp only [Option.some.injEq, Except.ok.injEq, Prod.mk.injEq] at h
          obtain ⟨h1, h2⟩ := h
          subst h1
          subst h2
          obtain ⟨hwf, hr⟩ := parseNodeF_wf cc f d (c :: t) nn rr hnode
          refine ⟨hwf, hr, ?_, ?_⟩
          · intro nn2 hnn
            simp [List.take, hcpar]
          · intro a ha
            exact absurd ha (by simp)
      · rename_i hcpar
        split at h
        · simp at h
        · rename_i a0 r0 hscan
          split at h
          · simp at h
          · rename_i r2 heat
            simp only [Option.some.injEq, Except.ok.injEq, Prod.mk.injEq] at h
            obtain ⟨h1, h2⟩ := h
            subst h1
            subst h2
            obtain ⟨hws_c, hpair1, hpair2⟩ := hnl
            have hcrp : c ≠ ')' := by
              intro hcc
              exact hrp (by rw [hcc]; simp [List.take])
            obtain ⟨t0, ha0⟩ := attrScan_head cc c t a0 r0 hscan hws_c hcrp
            obtain ⟨hpre, hstable⟩ := attrScan_run cc (c :: t) a0 r0 hscan
            refine ⟨?_, eatWs_out_norm cc r0 r2 heat, ?_, ?_⟩
            · show wfAttr cc (String.mk a0)
              refine ⟨?_, ?_, ?_, ?_, ?_, ?_⟩
              · rw [show (String.mk a0).toList = a0 from rfl, ha0]
                simp
              · rw [show (String.mk a0).toList = a0 from rfl, ha0]
                simp [List.take, hcpar]
              · rw [show (String.mk a0).toList = a0 from rfl, ha0]
                simp [List.take, hcrp]
              · rw [show (String.mk a0).toList = a0 from rfl, ha0]
                intro x hx
                simp only [List.take, List.mem_singleton] at hx
                subst hx
                exact hws_c
              · rw [show (String.mk a0).toList = a0 from rfl, ha0]
                cases t0 with
                | nil => simp [List.take]
                | cons c1 t1 =>
                  have ht : t = c1 :: (t1 ++ r0) := by
                    rw [ha0] at hpre
                    simpa using hpre
                  intro hteq
                  simp only [List.take, List.cons.injEq] at hteq
                  refine hpair1 ⟨hteq.1, ?_⟩
                  rw [ht]
                  simp [List.take, hteq.2.1]
              · rw [show (String.mk a0).toList = a0 from rfl]
                exact hstable ')' [] (Or.inl rfl) (by decide)
            · intro nn hnn
              exact absurd hnn (by simp)
            · intro a ha
              have ha2 : String.mk a0 = a := by
                simpa using ha
              rw [← ha2, show (String.mk a0).toList = a0 from rfl, ha0]
              simp [List.take]

theorem itemsLoopF_wf (cc : CharRules) :
    ∀ f d l its r, normalized cc l →
      itemsLoopF cc f d l = some (.ok (its, r)) →
      wfItems cc d its ∧ firstItemHeadRel l its
  | 0, d, l, its, r => by
    intro hnl h
    simp [itemsLoopF] at h
  | f + 1, d, l, its, r => by
    intro hnl h
    simp only [itemsLoopF] at h
    split at h
    · simp at h
    · rename_i c t
      split at h
      · rename_i hcrp
        simp only [Option.some.injEq, Except.ok.injEq, Prod.mk.injEq] at h
        obtain ⟨h1, h2⟩ := h
        subst h1
        subst h2
        exact ⟨True.intro, True.intro⟩
      · rename_i hcrp
        split at h
        · simp at h
        · simp at h
        · rename_i it r0 hitem
          split at h
          · simp at h
          · rename_i r2 heat
            split at h
            · simp at h
            · simp at h
            · rename_i its2 r3 hloop
              simp only [Option.some.injEq, Except.ok.injEq, Prod.mk.injEq] at h
              obtain ⟨h1, h2⟩ := h
              subst h1
              subst h2
              have htk : (c :: t).take 1 ≠ [')'] := by
                simp [List.take, hcrp]
              obtain ⟨hwfi, hnr0, hrelnode, hrelattr⟩ :=
                parseItemF_wf cc f d (c :: t) it r0 hnl htk hitem
              have hnr2 : normalized cc r2 := eatWs_out_norm cc r0 r2 heat
              obtain ⟨hwfits, -⟩ := itemsLoopF_wf cc f d r2 its2 r3 hnr2 hloop
              cases it with
              | nothing => exact absurd hwfi (by simp [wfItem])
              | «attribute» a =>
                exact ⟨⟨hwfi, hwfits⟩, hrelattr a rfl⟩
              | node nn =>
                exact ⟨⟨hwfi, hwfits⟩, hrelnode nn rfl⟩

end

theorem parse_wf (cc : CharRules) (s : String) (T : Node) (h : parse cc s = .ok T) :
    wfNode cc 0 T := by
  simp only [parse] at h
  split at h
  · simp at h
  · simp at h
  · rename_i n2 r2 hrun
    split at h
    · simp at h
    · rename_i r3 heat
      split at h
      · simp only [Except.ok.injEq] at h
        subst h
        exact (parseNodeF_wf cc _ 0 s.toList n2 r2 hrun).1
      · simp at h

/-- Claim C5: for every input string on which `parse` succeeds with tree `T`,
the serialization of `T` is a fixed point: reparsing it succeeds and returns
`T` itself (hence reserializing yields the same string). Stated for any
character classes satisfying the finitely many `CCSane` facts, which both the
Rust Unicode predicates and `ccAscii` satisfy. -/
theorem c5_roundtrip (cc : CharRules) (hs : CCSane cc) (s : String) (T : Node)
    (h : parse cc s = .ok T) : parse cc T.serialString = .ok T := by
  have hwf : wfNode cc 0 T := parse_wf cc s T h
  have hnil : eatWs cc ([] : List Char) = .ok [] := rfl
  have hrun : parseNodeF cc (parseFuel T.serial) 0 (T.serial ++ [])
      = some (.ok (T, [])) :=
    parseNodeOK cc hs T 0 hwf [] [] (parseFuel T.serial) hnil
      (by simp [parseFuel])
  rw [List.append_nil] at hrun
  simp only [parse]
  rw [show (Node.serialString T).toList = T.serial from rfl]
  simp only [hrun, hnil, List.isEmpty_nil, if_true]

theorem ccAscii_sane : CCSane ccAscii := by
  refine ⟨rfl, rfl, rfl, ?_, by decide, by decide, by decide, by decide⟩
  intro c hc
  show Char.isWhitespace c = false
  cases hw : Char.isWhitespace c with
  | false => rfl
  | true =>
    exfalso
    have hw2 : ((c = ' ' ∨ c = '\t') ∨ c = '\r') ∨ c = '\n' := by
      simpa [Char.isWhitespace] using hw
    rcases hw2 with ((rfl | rfl) | rfl) | rfl <;> exact absurd hc (by decide)

/-- witness for claim C5: a concrete parse (with extra whitespace) whose
resulting tree reparses from its own serialization to exactly itself. -/
theorem c5_witness :
    parse ccAscii
      ((Node.mk "module" 0 [.node (.mk "func" 1 [.attribute "$a"])]).serialString)
      = .ok (.mk "module" 0 [.node (.mk "func" 1 [.attribute "$a"])]) :=
  c5_roundtrip ccAscii ccAscii_sane "(module   (func $a) )" _ rfl

end SWL
